import Mathlib

/-!
# Verification of the macLLM tag-aware text codec

Shallow embedding of the pill-rendering core of the macLLM repository:

* `src/macllm/ui/tag_render.py` — `_collect_prefixes`, `display_string_for_tag`,
  `find_token_range`, `build_input_attributed_with_caret` (the render pass:
  tokenizer, trigger classification, caret mapping);
* `src/macllm/ui/input_field.py` — `_plain_text_from_view` (pill → raw-text
  extraction).

Modelling conventions:

* An `NSAttributedString` buffer is a `List RSeg`: each element occupies exactly
  one character position of the underlying storage string (a plain character, or
  an attachment rendered as U+FFFC).  A pill attachment carries the raw tag text
  under the `macLLMTagString` attribute (`RSeg.att (some raw) display`); an
  attachment without that attribute is `RSeg.att none display`.
* Plugin objects are duck-typed and any accessor may raise.  A raising call is
  modelled by `none`: `Plugin.get_prefixes = none` means `get_prefixes()` raised,
  likewise for `PATH_PREFIXES` (accessed through `getattr(p, "PATH_PREFIXES", [])`)
  and `display_string`.
* Python exceptions that *escape* a function are modelled by an `Option` result:
  `build_input_attributed_with_caret` returns `none` exactly when the
  uncaught `ValueError` of `urllib.parse.urlparse` propagates (see
  `token_is_url_tag`).
* Python `str` is Lean `String` (a list of characters); indices are counted in
  characters, as in Python.  `set` membership is modelled by list membership
  (only membership is ever used).
-/

namespace MacLLM

/-- The object-replacement character U+FFFC used by AppKit for attachments. -/
def objChar : Char := '￼'

/-- `is_delim` from `build_input_attributed_with_caret`:
`ch in (' ', '\n', '\t')`. -/
def is_delim (c : Char) : Bool := c == ' ' || c == '\n' || c == '\t'

/-- `a.startswith(b)` on Python strings, at the character-list level. -/
def startsWithL (pre l : List Char) : Bool := pre.isPrefixOf l

/-- A plugin object as seen by the codec.  `none` for a field models the
corresponding Python accessor raising an exception. -/
structure Plugin where
  get_prefixes : Option (List String)
  PATH_PREFIXES : Option (List String)
  display_string : String → Option String

/-- `_collect_prefixes` (tag_render.py, lines 93–117): returns
`(normal_prefixes, path_like, prefix_only)`.  A prefix is `prefix_only` when
`pr.endswith("://")`, i.e. `://` is a suffix of `pr` (protocol-style prefixes
such as `@http://`).  A raising `get_prefixes` or `PATH_PREFIXES` accessor
contributes nothing (the `except Exception: pass` arms). -/
def _collect_prefixes : List Plugin → List String × List String × List String
  | [] => ([], [], [])
  | p :: rest =>
    let prev := _collect_prefixes rest
    let prs := p.get_prefixes.getD []
    let paths := p.PATH_PREFIXES.getD []
    (prs ++ prev.1, paths ++ prev.2.1, prs.filter (fun pr => ("://".data).isSuffixOf pr.data) ++ prev.2.2)

/-- The `matched` computation inside `display_string_for_tag` for one plugin:
`any(raw_tag.startswith(pr) for pr in prefixes)` with the `PATH_PREFIXES`
special case; a raising accessor yields `False` for its part. -/
def matchedPrefix (p : Plugin) (raw_tag : String) : Bool :=
  (p.get_prefixes.getD []).any (fun pr => startsWithL pr.data raw_tag.data) ||
  (p.PATH_PREFIXES.getD []).any (fun pr => startsWithL pr.data raw_tag.data)

/-- `display_string_for_tag` (tag_render.py, lines 120–150): first plugin whose
prefixes match wins; a raising `display_string` falls back to `raw_tag`; no
match at all returns `raw_tag`. -/
def display_string_for_tag (raw_tag : String) : List Plugin → String
  | [] => raw_tag
  | p :: rest =>
    if matchedPrefix p raw_tag then (p.display_string raw_tag).getD raw_tag
    else display_string_for_tag raw_tag rest

/-- CPython `urlsplit` removes `\r`, `\n`, `\t` from the URL before parsing. -/
def stripUnsafeChars (l : List Char) : List Char :=
  l.filter (fun c => !(c == '\r' || c == '\n' || c == '\t'))

/-- The `netloc` component of `urlparse(url)` for a `url` of the form
`http://tail` / `https://tail`: the sanitized tail up to the first
`/`, `?` or `#`. -/
def netlocOf (tail : List Char) : List Char :=
  (stripUnsafeChars tail).takeWhile (fun c => !(c == '/' || c == '?' || c == '#'))

/-- `token_is_url_tag` (tag_render.py, lines 270–276).  `urlparse` is modelled
on the ASCII fragment of its input domain here (the token starts with
`@http://` or `@https://`, so the scheme is always present): `netloc` is the
authority component, and `urlsplit` raises `ValueError("Invalid IPv6 URL")` —
modelled by `none` — when exactly one of `[`, `]` occurs in the netloc.
CPython's `_checknetloc` can raise a further `ValueError` for a *non-ASCII*
netloc whose NFKC normalization introduces one of `/?#@:` (e.g. `℀`, which
normalizes to `a/c`); for an ASCII netloc it returns immediately on the
`netloc.isascii()` test, so on ASCII input the mismatched-bracket check is the
only error path and this model is exact.  NFKC normalization itself is outside
this embedding, so every theorem below whose conclusion asserts that the
render *returns* restricts URL-candidate tokens to ASCII (`isascii`).
The function itself returns `bool(parsed.scheme and parsed.netloc)`. -/
def token_is_url_tag (tok : String) : Option Bool :=
  if startsWithL "@http://".data tok.data || startsWithL "@https://".data tok.data then
    let tail := if startsWithL "@https://".data tok.data then tok.data.drop 9 else tok.data.drop 8
    let nl := netlocOf tail
    if nl.contains '[' != nl.contains ']' then none
    else some (!nl.isEmpty)
  else some false

/-- `str.isascii()`: every character is a 7-bit code point.  In CPython's
`_checknetloc` an ASCII netloc returns before the NFKC normalization, so the
NFKC `ValueError` can only concern non-ASCII authorities. -/
def isascii (l : List Char) : Bool := l.all (fun c => decide (c.toNat < 128))

/-- One unit of a rendered attributed buffer: a plain character, or a 1-unit
attachment (`raw = some s` iff the `macLLMTagString` attribute holds `s`). -/
inductive RSeg where
  | ch (c : Char)
  | att (raw : Option String) (display : String)
deriving DecidableEq, Repr

/-- The character this segment contributes to the storage string. -/
def segChar : RSeg → Char
  | .ch c => c
  | .att _ _ => objChar

/-- The `macLLMTagString` attribute at this segment, if any. -/
def segTag : RSeg → Option String
  | .ch _ => none
  | .att r _ => r

/-- Loop state of `build_input_attributed_with_caret`'s single pass. -/
structure RState where
  result : List RSeg
  plain_index : Nat
  caret_attr_index : Nat
  caret_set : Bool
deriving DecidableEq, Repr

/-- Delimiter iteration of the render loop (tag_render.py, lines 284–293). -/
def delimStep (c : Int) (ch : Char) (st : RState) : RState :=
  let latch : Bool := !st.caret_set && decide (c = (st.plain_index : Int) + 1)
  { result := st.result ++ [RSeg.ch ch]
    plain_index := st.plain_index + 1
    caret_attr_index := if latch then st.result.length + 1 else st.caret_attr_index
    caret_set := st.caret_set || latch }

/-- Pill-emitting part of a token iteration (tag_render.py, lines 338–348). -/
def pillStep (c : Int) (raw display : String) (L : Nat) (st : RState) : RState :=
  let latch : Bool := !st.caret_set &&
    decide ((st.plain_index : Int) ≤ c ∧ c ≤ (st.plain_index : Int) + L)
  { result := st.result ++ [RSeg.att (some raw) display]
    plain_index := st.plain_index + L
    caret_attr_index := if latch then st.result.length + 1 else st.caret_attr_index
    caret_set := st.caret_set || latch }

/-- Plain-emitting part of a token iteration (tag_render.py, lines 350–357). -/
def plainStep (c : Int) (tokL : List Char) (st : RState) : RState :=
  let latch : Bool := !st.caret_set &&
    decide ((st.plain_index : Int) ≤ c ∧ c ≤ (st.plain_index : Int) + tokL.length)
  { result := st.result ++ tokL.map RSeg.ch
    plain_index := st.plain_index + tokL.length
    caret_attr_index :=
      if latch then st.result.length + (c - (st.plain_index : Int)).toNat
      else st.caret_attr_index
    caret_set := st.caret_set || latch }

/-- The token scanner of the render loop (tag_render.py, lines 296–310): a
token starting with `@"` is consumed through the closing quote (or to end of
buffer); any other token is read up to the next delimiter.  Returns
`(token, rest)`. -/
def takeToken (l : List Char) : List Char × List Char :=
  match l with
  | a :: b :: rest =>
    if a = '@' ∧ b = '"' then
      let body := rest.takeWhile (fun c => !(c == '"'))
      let rest2 := rest.dropWhile (fun c => !(c == '"'))
      if rest2.isEmpty then (a :: b :: body, rest2)
      else (a :: b :: (body ++ ['"']), rest2.tail)
    else ((a :: b :: rest).takeWhile (fun c => !is_delim c),
          (a :: b :: rest).dropWhile (fun c => !is_delim c))
  | _ => (l.takeWhile (fun c => !is_delim c), l.dropWhile (fun c => !is_delim c))

/-- Pill classification of one token (tag_render.py, lines 312–336):
shortcut, exact tag, URL tag, path tag — each requiring a trailing whitespace
delimiter.  Result: `none` = the `urlparse` `ValueError` propagates;
`some none` = plain text; `some (some (raw, display))` = pill. -/
def classify (sc np pp po : List String) (pl : List Plugin) (token : String)
    (next_delim : Option Char) : Option (Option (String × String)) :=
  let nd_ws : Bool := match next_delim with | some d => is_delim d | none => false
  if token ∈ sc ∧ nd_ws = true then some (some (token, token))
  else if startsWithL "@".data token.data then
    if token ∈ np ∧ token ∉ po ∧ nd_ws = true then
      some (some (token, display_string_for_tag token pl))
    else
      match token_is_url_tag token with
      | none => none
      | some u =>
        if u = true ∧ nd_ws = true then
          some (some (token, display_string_for_tag token pl))
        else if pp.any (fun pr => startsWithL pr.data token.data) = true ∧ nd_ws = true then
          some (some (token, display_string_for_tag token pl))
        else some none
  else some none

/-- Fuel-indexed form of the render loop.  The fuel is a Lean artifact: each
iteration consumes at least one character, so fuel `> length` never runs out
(`buildF_fuel_irrel`); `build_loop` instantiates it. -/
def buildF (sc np pp po : List String) (pl : List Plugin) (c : Int) :
    Nat → List Char → RState → Option RState
  | 0, _, _ => none
  | _ + 1, [], st => some st
  | f + 1, ch :: rest, st =>
    if is_delim ch then buildF sc np pp po pl c f rest (delimStep c ch st)
    else
      let tt := takeToken (ch :: rest)
      match classify sc np pp po pl ⟨tt.1⟩ tt.2.head? with
      | none => none
      | some (some rd) => buildF sc np pp po pl c f tt.2 (pillStep c rd.1 rd.2 tt.1.length st)
      | some none => buildF sc np pp po pl c f tt.2 (plainStep c tt.1 st)

/-- The `while i < len(text)` loop of `build_input_attributed_with_caret`
(tag_render.py, lines 282–357), acting on the remaining character list. -/
def build_loop (sc np pp po : List String) (pl : List Plugin) (c : Int)
    (l : List Char) (st : RState) : Option RState :=
  buildF sc np pp po pl c (l.length + 1) l st

/-- Final caret clamping (tag_render.py, lines 359–363). -/
def finishCaret (st : RState) : Nat :=
  let c := if st.caret_set then st.caret_attr_index else st.result.length
  if c > st.result.length then st.result.length else c

/-- `build_input_attributed_with_caret` (tag_render.py, lines 230–364).
`typing_attrs` only affects visual styling and is omitted.  Returns
`(rendered buffer, caret_attr_index)`, or `none` when the `urlparse`
`ValueError` propagates. -/
def build_input_attributed_with_caret (text : String) (shortcuts : List String)
    (plugins : List Plugin) (caret_plain_index : Int) : Option (List RSeg × Nat) :=
  let sets := _collect_prefixes plugins
  match build_loop shortcuts sets.1 sets.2.1 sets.2.2 plugins caret_plain_index
      text.data { result := [], plain_index := 0, caret_attr_index := 0, caret_set := false } with
  | none => none
  | some st => some (st.result, finishCaret st)

/-- `result[-1].endswith((" ", "\n", "\t"))` for one accumulated string. -/
def endsWS (s : String) : Bool :=
  match s.data.getLast? with
  | some c => is_delim c
  | none => false

/-- `result and not result[-1].endswith((" ", "\n", "\t"))` — whether the
extraction inserts a space before an expanded tag. -/
def needsLeadingSpace (acc : List String) : Bool :=
  match acc.getLast? with
  | none => false
  | some s => !endsWS s

/-- The character loop of `_plain_text_from_view` (input_field.py,
lines 263–285), with `acc` playing the role of the Python `result` list. -/
def to_plain_go (acc : List String) : List RSeg → List String
  | [] => acc
  | s :: rest =>
    if segChar s == objChar then
      match segTag s with
      | none => to_plain_go acc rest
      | some tag =>
        let acc1 := if needsLeadingSpace acc then acc ++ [" "] else acc
        let acc2 := acc1 ++ [tag]
        let acc3 :=
          match rest with
          | [] => acc2
          | s2 :: _ => if is_delim (segChar s2) then acc2 else acc2 ++ [" "]
        to_plain_go acc3 rest
    else to_plain_go (acc ++ [String.mk [segChar s]]) rest

/-- `"".join(result)`. -/
def strJoin : List String → String
  | [] => ""
  | s :: rest => s ++ strJoin rest

/-- `_plain_text_from_view` (input_field.py, lines 250–288) on a rendered
buffer.  (`strip_ends = True` applies Python `str.strip()`, modelled by
`String.trim`; every claim below uses `strip_ends = False`.) -/
def _plain_text_from_view (buf : List RSeg) (strip_ends : Bool) : String :=
  let joined := strJoin (to_plain_go [] buf)
  if strip_ends then joined.trim else joined

/-- The raw texts of the pills of a buffer, in order. -/
def pillsOf (buf : List RSeg) : List String :=
  buf.filterMap (fun s => match s with | .att (some r) _ => some r | _ => none)

/-- Backward half of `find_token_range` (tag_render.py, lines 160–170):
scan left from `start`, toggling on `"`, stopping at a delimiter outside
quotes. -/
def find_start (text : List Char) : Nat → Bool → Nat
  | 0, _ => 0
  | s + 1, inq =>
    match text.get? s with
    | none => 0
    | some ch =>
      if ch == '"' then find_start text s (!inq)
      else if is_delim ch ∧ inq = false then s + 1
      else find_start text s inq

/-- Forward half of `find_token_range` (tag_render.py, lines 171–183), as the
number of characters consumed from the remaining text. -/
def find_end_aux : List Char → Bool → Nat
  | [], _ => 0
  | ch :: rest, inq =>
    if ch == '"' then find_end_aux rest (!inq) + 1
    else if is_delim ch ∧ inq = false then 0
    else find_end_aux rest inq + 1

/-- `find_token_range` (tag_render.py, lines 153–183) with its caret
clamping. -/
def find_token_range (text : String) (caret_index : Int) : Nat × Nat :=
  let ci : Nat := if caret_index < 0 then 0 else min caret_index.toNat text.data.length
  (find_start text.data ci false, ci + find_end_aux (text.data.drop ci) false)

/-- Modelled from the spec (§4.2 Tokenizer): the scan the spec claims for
*every* token of the render pass — a `"` toggles an inside-quotes flag and
delimiters inside quotes are absorbed into the token.  Used only to compare
the spec's claimed tokenizer with the code's `takeToken`. -/
def spec_quote_scan : List Char → Bool → List Char × List Char
  | [], _ => ([], [])
  | ch :: rest, inq =>
    if ch == '"' then
      let p := spec_quote_scan rest (!inq)
      (ch :: p.1, p.2)
    else if is_delim ch ∧ inq = false then ([], ch :: rest)
    else
      let p := spec_quote_scan rest inq
      (ch :: p.1, p.2)

/-! ## Basic string and list helpers -/

theorem string_ext {a b : String} (h : a.data = b.data) : a = b := by
  cases a; cases b; exact congrArg String.mk h

theorem strdata_append (a b : String) : (a ++ b).data = a.data ++ b.data := by
  cases a; cases b; rfl

theorem str_append_assoc (a b c : String) : a ++ b ++ c = a ++ (b ++ c) := by
  apply string_ext; simp [strdata_append]

theorem str_empty_append (a : String) : "" ++ a = a := by
  apply string_ext; simp [strdata_append]

theorem str_append_empty (a : String) : a ++ "" = a := by
  apply string_ext; simp [strdata_append]

theorem strJoin_append (x y : List String) : strJoin (x ++ y) = strJoin x ++ strJoin y := by
  induction x with
  | nil => simp [strJoin, str_empty_append]
  | cons s t ih => simp [strJoin, ih, str_append_assoc]

theorem strJoin_singletons (l : List Char) :
    strJoin (l.map (fun c => String.mk [c])) = String.mk l := by
  induction l with
  | nil => rfl
  | cons c t ih =>
    simp only [List.map_cons, strJoin, ih]
    apply string_ext
    simp [strdata_append]

theorem takeWhile_append_all {p : Char → Bool} :
    ∀ (a b : List Char), (∀ x ∈ a, p x = true) →
      (a ++ b).takeWhile p = a ++ b.takeWhile p := by
  intro a b h
  induction a with
  | nil => rfl
  | cons x t ih =>
    have hx : p x = true := h x (by simp)
    simp only [List.cons_append, List.takeWhile_cons, hx, if_true]
    rw [ih (fun y hy => h y (by simp [hy]))]

theorem dropWhile_append_all {p : Char → Bool} :
    ∀ (a b : List Char), (∀ x ∈ a, p x = true) →
      (a ++ b).dropWhile p = b.dropWhile p := by
  intro a b h
  induction a with
  | nil => rfl
  | cons x t ih =>
    have hx : p x = true := h x (by simp)
    simp only [List.cons_append, List.dropWhile_cons, hx, if_true]
    exact ih (fun y hy => h y (by simp [hy]))

theorem dropWhile_head_false {p : Char → Bool} :
    ∀ (l : List Char) (c : Char) (r : List Char), l.dropWhile p = c :: r → p c = false := by
  intro l
  induction l with
  | nil => intro c r h; simp [List.dropWhile] at h
  | cons x t ih =>
    intro c r h
    by_cases hx : p x = true
    · rw [List.dropWhile_cons, if_pos hx] at h
      exact ih c r h
    · rw [List.dropWhile_cons, if_neg hx] at h
      cases h
      simpa using hx

theorem length_dropWhile_le (p : Char → Bool) (l : List Char) :
    (l.dropWhile p).length ≤ l.length := by
  induction l with
  | nil => simp [List.dropWhile]
  | cons x t ih =>
    rw [List.dropWhile_cons]
    by_cases hx : p x = true
    · rw [if_pos hx]; simp only [List.length_cons]; omega
    · rw [if_neg hx]

theorem length_tail_le (l : List Char) : l.tail.length ≤ l.length := by
  cases l <;> simp

/-! ## Tokenizer lemmas -/

theorem takeToken_append : ∀ l : List Char, (takeToken l).1 ++ (takeToken l).2 = l := by
  intro l
  match l with
  | [] => simp [takeToken]
  | [a] => simp [takeToken]
  | a :: b :: rest =>
    by_cases hab : a = '@' ∧ b = '"'
    · simp only [takeToken, if_pos hab]
      by_cases he : (rest.dropWhile (fun c => !(c == '"'))).isEmpty
      · simp only [if_pos he]
        simp [List.takeWhile_append_dropWhile]
      · simp only [if_neg he]
        rcases hd : rest.dropWhile (fun c => !(c == '"')) with _ | ⟨c, r⟩
        · rw [hd] at he; simp at he
        · have hc : (!(c == '"')) = false := dropWhile_head_false rest c r hd
          have hc' : c = '"' := by simpa using hc
          subst hc'
          have hsplit : rest.takeWhile (fun c => !(c == '"')) ++ '"' :: r = rest := by
            conv_rhs => rw [← List.takeWhile_append_dropWhile (p := fun c => !(c == '"')) (l := rest)]
            rw [hd]
          simp only [hd, List.tail_cons, List.cons_append, List.append_assoc,
            List.singleton_append, List.nil_append]
          rw [hsplit]
    · simp only [takeToken, if_neg hab]
      simp [List.takeWhile_append_dropWhile]

theorem takeToken_snd_lt (ch : Char) (rest : List Char) :
    is_delim ch = false → ((takeToken (ch :: rest)).2).length < rest.length + 1 := by
  intro h
  match rest with
  | [] =>
    simp only [takeToken, List.takeWhile, List.dropWhile]
    simp [h]
  | b :: rest' =>
    by_cases hab : ch = '@' ∧ b = '"'
    · simp only [takeToken, if_pos hab]
      by_cases he : (rest'.dropWhile (fun c => !(c == '"'))).isEmpty
      · simp only [if_pos he]
        have := length_dropWhile_le (fun c => !(c == '"')) rest'
        simp only [List.length_cons]
        omega
      · simp only [if_neg he]
        have h1 := length_dropWhile_le (fun c => !(c == '"')) rest'
        have h2 := length_tail_le (rest'.dropWhile (fun c => !(c == '"')))
        simp only [List.length_cons]
        omega
    · simp only [takeToken, if_neg hab]
      have hch : (!is_delim ch) = true := by simp [h]
      rw [List.dropWhile_cons, if_pos hch]
      have := length_dropWhile_le (fun c => !is_delim c) (b :: rest')
      simp only [List.length_cons] at this ⊢
      omega

theorem takeToken_fst_ne_nil (ch : Char) (rest : List Char) :
    is_delim ch = false → (takeToken (ch :: rest)).1 ≠ [] := by
  intro h
  match rest with
  | [] => simp [takeToken, List.takeWhile, h]
  | b :: rest' =>
    by_cases hab : ch = '@' ∧ b = '"'
    · simp only [takeToken, if_pos hab]
      by_cases he : (rest'.dropWhile (fun c => !(c == '"'))).isEmpty <;> simp [he]
    · simp only [takeToken, if_neg hab]
      have hch : (!is_delim ch) = true := by simp [h]
      simp [List.takeWhile_cons, hch]

/-! ## Fuel irrelevance and one-step unfolding of the render loop -/

theorem buildF_fuel_irrel (sc np pp po : List String) (pl : List Plugin) (c : Int) :
    ∀ (f f' : Nat) (l : List Char) (st : RState), l.length < f → l.length < f' →
      buildF sc np pp po pl c f l st = buildF sc np pp po pl c f' l st := by
  intro f
  induction f with
  | zero => intro f' l st h; omega
  | succ g ih =>
    intro f' l st h h'
    match f', l with
    | 0, l => omega
    | g' + 1, [] => rfl
    | g' + 1, ch :: rest =>
      simp only [buildF]
      by_cases hd : is_delim ch
      · simp only [hd, if_true]
        apply ih
        · simp only [List.length_cons] at h; omega
        · simp only [List.length_cons] at h'; omega
      · simp only [hd, Bool.false_eq_true, if_false]
        have hlt : ((takeToken (ch :: rest)).2).length < rest.length + 1 :=
          takeToken_snd_lt ch rest (by simpa using hd)
        simp only [List.length_cons] at h h'
        cases hcl : classify sc np pp po pl ⟨(takeToken (ch :: rest)).1⟩
            ((takeToken (ch :: rest)).2.head?) with
        | none => rfl
        | some r =>
          cases r with
          | none => apply ih <;> omega
          | some rd => apply ih <;> omega

theorem build_loop_nil (sc np pp po : List String) (pl : List Plugin) (c : Int) (st : RState) :
    build_loop sc np pp po pl c [] st = some st := rfl

theorem build_loop_cons_delim (sc np pp po : List String) (pl : List Plugin) (c : Int)
    (ch : Char) (rest : List Char) (st : RState) (h : is_delim ch = true) :
    build_loop sc np pp po pl c (ch :: rest) st
      = build_loop sc np pp po pl c rest (delimStep c ch st) := by
  simp only [build_loop, List.length_cons, buildF, h, if_true]

theorem build_loop_cons_tok_raise (sc np pp po : List String) (pl : List Plugin) (c : Int)
    (ch : Char) (rest : List Char) (st : RState) (h : is_delim ch = false)
    (hcl : classify sc np pp po pl ⟨(takeToken (ch :: rest)).1⟩
      ((takeToken (ch :: rest)).2.head?) = none) :
    build_loop sc np pp po pl c (ch :: rest) st = none := by
  simp only [build_loop, List.length_cons, buildF, h, Bool.false_eq_true, if_false, hcl]

theorem build_loop_cons_tok_pill (sc np pp po : List String) (pl : List Plugin) (c : Int)
    (ch : Char) (rest : List Char) (st : RState) (raw disp : String) (h : is_delim ch = false)
    (hcl : classify sc np pp po pl ⟨(takeToken (ch :: rest)).1⟩
      ((takeToken (ch :: rest)).2.head?) = some (some (raw, disp))) :
    build_loop sc np pp po pl c (ch :: rest) st
      = build_loop sc np pp po pl c ((takeToken (ch :: rest)).2)
          (pillStep c raw disp ((takeToken (ch :: rest)).1).length st) := by
  simp only [build_loop, List.length_cons, buildF, h, Bool.false_eq_true, if_false, hcl]
  exact buildF_fuel_irrel sc np pp po pl c _ _ _ _
    (takeToken_snd_lt ch rest h) (Nat.lt_succ_self _)

theorem build_loop_cons_tok_plain (sc np pp po : List String) (pl : List Plugin) (c : Int)
    (ch : Char) (rest : List Char) (st : RState) (h : is_delim ch = false)
    (hcl : classify sc np pp po pl ⟨(takeToken (ch :: rest)).1⟩
      ((takeToken (ch :: rest)).2.head?) = some none) :
    build_loop sc np pp po pl c (ch :: rest) st
      = build_loop sc np pp po pl c ((takeToken (ch :: rest)).2)
          (plainStep c ((takeToken (ch :: rest)).1) st) := by
  simp only [build_loop, List.length_cons, buildF, h, Bool.false_eq_true, if_false, hcl]
  exact buildF_fuel_irrel sc np pp po pl c _ _ _ _
    (takeToken_snd_lt ch rest h) (Nat.lt_succ_self _)

/-! ## Classification lemmas -/

theorem classify_pill_raw (sc np pp po : List String) (pl : List Plugin) (tok : String)
    (nd : Option Char) (r ds : String)
    (h : classify sc np pp po pl tok nd = some (some (r, ds))) : r = tok := by
  simp only [classify] at h
  split at h
  · simp only [Option.some.injEq, Prod.mk.injEq] at h; exact h.1.symm
  · split at h
    · split at h
      · simp only [Option.some.injEq, Prod.mk.injEq] at h; exact h.1.symm
      · split at h
        · exact absurd h (by simp)
        · split at h
          · simp only [Option.some.injEq, Prod.mk.injEq] at h; exact h.1.symm
          · split at h
            · simp only [Option.some.injEq, Prod.mk.injEq] at h; exact h.1.symm
            · exact absurd h (by simp)
    · exact absurd h (by simp)

theorem classify_no_ws (sc np pp po : List String) (pl : List Plugin) (tok : String)
    (nd : Option Char)
    (hnd : (match nd with | some d => is_delim d | none => false) = false) :
    classify sc np pp po pl tok nd = none ∨ classify sc np pp po pl tok nd = some none := by
  simp only [classify, hnd, Bool.false_eq_true, and_false, if_false, false_and]
  split
  · split
    · exact Or.inl rfl
    · exact Or.inr rfl
  · exact Or.inr rfl

theorem classify_pill_nd (sc np pp po : List String) (pl : List Plugin) (tok : String)
    (nd : Option Char) (p : String × String)
    (h : classify sc np pp po pl tok nd = some (some p)) :
    ∃ d, nd = some d ∧ is_delim d = true := by
  cases nd with
  | none =>
    rcases classify_no_ws sc np pp po pl tok none rfl with hc | hc <;>
      rw [hc] at h <;> simp at h
  | some d =>
    by_cases hd : is_delim d = true
    · exact ⟨d, rfl, hd⟩
    · have hd' : is_delim d = false := by simpa using hd
      rcases classify_no_ws sc np pp po pl tok (some d) (by simpa using hd') with hc | hc <;>
        rw [hc] at h <;> simp at h

theorem finishCaret_set (st : RState) (h : st.caret_set = true)
    (h2 : st.caret_attr_index ≤ st.result.length) :
    finishCaret st = st.caret_attr_index := by
  simp only [finishCaret, h, if_true]
  rw [if_neg (by omega)]

theorem finishCaret_unset (st : RState) (h : st.caret_set = false) :
    finishCaret st = st.result.length := by
  simp [finishCaret, h]

/-- Once the caret is latched, the rest of the loop never changes it, and the
rendered buffer only grows. -/
theorem build_loop_preserve (sc np pp po : List String) (pl : List Plugin) (c : Int) :
    ∀ (n : Nat) (l : List Char) (st st' : RState), l.length ≤ n → st.caret_set = true →
      build_loop sc np pp po pl c l st = some st' →
      st'.caret_set = true ∧ st'.caret_attr_index = st.caret_attr_index ∧
        st.result.length ≤ st'.result.length := by
  intro n
  induction n with
  | zero =>
    intro l st st' hl hset hb
    have hnil : l = [] := List.length_eq_zero.mp (Nat.le_zero.mp hl)
    subst hnil
    rw [build_loop_nil] at hb
    cases hb
    exact ⟨hset, rfl, le_refl _⟩
  | succ n ih =>
    intro l st st' hl hset hb
    match l with
    | [] =>
      rw [build_loop_nil] at hb
      cases hb
      exact ⟨hset, rfl, le_refl _⟩
    | ch :: rest =>
      simp only [List.length_cons] at hl
      by_cases hd : is_delim ch = true
      · rw [build_loop_cons_delim sc np pp po pl c ch rest st hd] at hb
        have hstep : (delimStep c ch st).caret_set = true ∧
            (delimStep c ch st).caret_attr_index = st.caret_attr_index ∧
            st.result.length ≤ (delimStep c ch st).result.length := by
          refine ⟨by simp [delimStep, hset], by simp [delimStep, hset], ?_⟩
          simp [delimStep]
        obtain ⟨a1, a2, a3⟩ := ih rest _ st' (by omega) hstep.1 hb
        exact ⟨a1, by rw [a2, hstep.2.1], le_trans hstep.2.2 a3⟩
      · have hd' : is_delim ch = false := by simpa using hd
        have hlt := takeToken_snd_lt ch rest hd'
        cases hcl : classify sc np pp po pl ⟨(takeToken (ch :: rest)).1⟩
            ((takeToken (ch :: rest)).2.head?) with
        | none =>
          rw [build_loop_cons_tok_raise sc np pp po pl c ch rest st hd' hcl] at hb
          cases hb
        | some r =>
          cases r with
          | some rd =>
            rw [build_loop_cons_tok_pill sc np pp po pl c ch rest st rd.1 rd.2 hd'
              (by rw [hcl])] at hb
            have hstep : (pillStep c rd.1 rd.2 ((takeToken (ch :: rest)).1).length st).caret_set = true ∧
                (pillStep c rd.1 rd.2 ((takeToken (ch :: rest)).1).length st).caret_attr_index
                  = st.caret_attr_index ∧
                st.result.length ≤
                  (pillStep c rd.1 rd.2 ((takeToken (ch :: rest)).1).length st).result.length := by
              refine ⟨by simp [pillStep, hset], by simp [pillStep, hset], ?_⟩
              simp [pillStep]
            obtain ⟨a1, a2, a3⟩ := ih _ _ st' (by omega) hstep.1 hb
            exact ⟨a1, by rw [a2, hstep.2.1], le_trans hstep.2.2 a3⟩
          | none =>
            rw [build_loop_cons_tok_plain sc np pp po pl c ch rest st hd' hcl] at hb
            have hstep : (plainStep c ((takeToken (ch :: rest)).1) st).caret_set = true ∧
                (plainStep c ((takeToken (ch :: rest)).1) st).caret_attr_index
                  = st.caret_attr_index ∧
                st.result.length ≤ (plainStep c ((takeToken (ch :: rest)).1) st).result.length := by
              refine ⟨by simp [plainStep, hset], by simp [plainStep, hset], ?_⟩
              simp [plainStep]
            obtain ⟨a1, a2, a3⟩ := ih _ _ st' (by omega) hstep.1 hb
            exact ⟨a1, by rw [a2, hstep.2.1], le_trans hstep.2.2 a3⟩

/-! ## C4 — pill atomicity of the caret -/

/-- C4: Pill atomicity.  If, when the render loop reaches a token that is
converted to a pill (`classify` returns a pill for it and the scanner consumes
exactly that token), the caret has not been latched earlier
(`st.caret_set = false`) and the caret's plain index lies in
`[token_start, token_start + len(token)]` (where `token_start` is the current
`plain_index`), then the caret index finally returned (after the end-of-loop
clamping `finishCaret`) is the rendered length immediately after the pill,
i.e. `st.result.length + 1`.  Since a pill spans exactly one rendered unit,
an integer caret can only sit at its two edges, never strictly inside it;
this theorem shows the caret lands on the right edge. -/
theorem C4_pill_atomicity (sc np pp po : List String) (pl : List Plugin) (c : Int)
    (tok : String) (d : Char) (suffix : List Char) (st st' : RState) (raw disp : String)
    (hset : st.caret_set = false)
    (hne : tok.data ≠ [])
    (hhead : is_delim tok.data.headI = false)
    (hscan : takeToken (tok.data ++ d :: suffix) = (tok.data, d :: suffix))
    (hcl : classify sc np pp po pl tok (some d) = some (some (raw, disp)))
    (hc1 : (st.plain_index : Int) ≤ c) (hc2 : c ≤ (st.plain_index : Int) + tok.length)
    (hb : build_loop sc np pp po pl c (tok.data ++ d :: suffix) st = some st') :
    finishCaret st' = st.result.length + 1 := by
  rcases htok : tok.data with _ | ⟨ch, tl⟩
  · exact absurd htok hne
  · rw [htok] at hscan hhead hb
    simp only [List.cons_append] at hscan hb
    simp only [List.headI] at hhead
    have hfst : (takeToken (ch :: (tl ++ d :: suffix))).1 = ch :: tl := by rw [hscan]
    have hsnd : (takeToken (ch :: (tl ++ d :: suffix))).2 = d :: suffix := by rw [hscan]
    have hcl' : classify sc np pp po pl ⟨(takeToken (ch :: (tl ++ d :: suffix))).1⟩
        ((takeToken (ch :: (tl ++ d :: suffix))).2.head?) = some (some (raw, disp)) := by
      rw [hfst, hsnd]
      have : (⟨ch :: tl⟩ : String) = tok := by rw [← htok]
      rw [this]
      exact hcl
    rw [build_loop_cons_tok_pill sc np pp po pl c ch (tl ++ d :: suffix) st raw disp hhead hcl']
      at hb
    rw [hfst, hsnd] at hb
    set st1 := pillStep c raw disp (ch :: tl).length st with hst1
    have hlen : tok.length = (ch :: tl).length := by
      show tok.data.length = _
      rw [htok]
    have hlatch : st1.caret_set = true ∧ st1.caret_attr_index = st.result.length + 1 ∧
        st1.result.length = st.result.length + 1 := by
      rw [hst1]
      rw [hlen] at hc2
      have hl : (!st.caret_set && decide ((st.plain_index : Int) ≤ c ∧
          c ≤ (st.plain_index : Int) + ((ch :: tl).length : Int))) = true := by
        rw [hset]
        simp only [Bool.not_false, Bool.true_and, decide_eq_true_eq]
        exact ⟨hc1, hc2⟩
      refine ⟨?_, ?_, ?_⟩
      · simp only [pillStep, hl, Bool.or_true]
      · simp only [pillStep, hl, if_true]
      · simp [pillStep]
    obtain ⟨p1, p2, p3⟩ := build_loop_preserve sc np pp po pl c (d :: suffix).length
      (d :: suffix) st1 st' (le_refl _) hlatch.1 hb
    rw [finishCaret_set st' p1 (by rw [p2, hlatch.2.1]; omega)]
    rw [p2, hlatch.2.1]

/-- Witness for `C4_pill_atomicity`: text `/blog ` with `/blog` a registered
shortcut and caret at plain index 2 (inside the token). -/
theorem C4_pill_atomicity_witness :
    finishCaret ⟨[RSeg.att (some "/blog") "/blog", RSeg.ch ' '], 6, 1, true⟩
      = (⟨[], 0, 0, false⟩ : RState).result.length + 1 :=
  C4_pill_atomicity ["/blog"] [] [] [] [] 2 "/blog" ' ' []
    ⟨[], 0, 0, false⟩ ⟨[RSeg.att (some "/blog") "/blog", RSeg.ch ' '], 6, 1, true⟩
    "/blog" "/blog" (by decide) (by decide) (by decide) (by decide) (by decide)
    (by decide) (by decide) (by decide)

/-! ## C5 — a token at end of buffer is never converted -/

theorem needsLeadingSpace_concat_space (x : List String) :
    needsLeadingSpace (x ++ [" "]) = false := by
  unfold needsLeadingSpace
  rw [List.getLast?_concat]
  decide

theorem needsLeadingSpace_append_pair (x : List String) (a : String) :
    needsLeadingSpace (x ++ [a, " "]) = false := by
  unfold needsLeadingSpace
  rw [show x ++ [a, " "] = (x ++ [a]) ++ [" "] by simp]
  rw [List.getLast?_concat]
  decide

/-- One extraction step on a pill carrying raw text `r`:
leading space if the previous output does not end in whitespace, the raw
text, trailing space if a next storage character exists and is not
whitespace. -/
theorem to_plain_go_att_some (acc : List String) (r d : String) (rest : List RSeg) :
    to_plain_go acc (RSeg.att (some r) d :: rest)
      = to_plain_go
          ((if needsLeadingSpace acc then acc ++ [" "] else acc) ++ [r]
            ++ (match rest with
                | [] => ([] : List String)
                | s2 :: _ => if is_delim (segChar s2) then [] else [" "])) rest := by
  simp only [to_plain_go, segChar, segTag, beq_self_eq_true, if_true]
  cases rest with
  | nil => simp
  | cons s2 r2 =>
    cases s2 with
    | ch c2 =>
      by_cases hs : is_delim c2 = true <;> simp [segChar, hs, List.append_assoc]
    | att rr dd =>
      simp [segChar, (by decide : is_delim objChar = false), List.append_assoc]

/-- One extraction step on an ordinary plain character: copied verbatim. -/
theorem to_plain_go_char (acc : List String) (c : Char) (rest : List RSeg)
    (h : (c == objChar) = false) :
    to_plain_go acc (RSeg.ch c :: rest) = to_plain_go (acc ++ [String.mk [c]]) rest := by
  simp only [to_plain_go, segChar, h, Bool.false_eq_true, if_false]

/-- C8: Adjacent-pill spacing.  When two pills (attachments carrying raw
texts) are adjacent in a rendered buffer with no plain characters between
them, the extraction loop of `_plain_text_from_view` emits the first raw
text, then exactly one separating space (inserted as trailing space after the
first pill because the next storage character U+FFFC is not whitespace), then
the second raw text with no additional leading space (the just-emitted `" "`
already ends in whitespace). -/
theorem C8_adjacent_pills (acc : List String) (raw1 d1 raw2 d2 : String) (post : List RSeg) :
    to_plain_go acc (RSeg.att (some raw1) d1 :: RSeg.att (some raw2) d2 :: post)
      = to_plain_go
          ((if needsLeadingSpace acc then acc ++ [" "] else acc) ++ [raw1, " ", raw2]
            ++ (match post with
                | [] => ([] : List String)
                | s2 :: _ => if is_delim (segChar s2) then [] else [" "])) post := by
  have hobj : is_delim objChar = false := by decide
  rw [to_plain_go_att_some, to_plain_go_att_some]
  congr 1
  simp only [segChar, hobj, Bool.false_eq_true, if_false, needsLeadingSpace_concat_space,
    needsLeadingSpace_append_pair, List.append_assoc, List.cons_append, List.nil_append,
    List.singleton_append, List.append_nil]

/-- C10 (implicit): an attachment placeholder with no `macLLMTagString`
attribute contributes nothing to the extracted plain text — it is skipped
entirely by `_plain_text_from_view`'s loop and no separating spaces are
inserted for it. -/
theorem C10_unknown_attachment (acc : List String) (d : String) (post : List RSeg) :
    to_plain_go acc (RSeg.att none d :: post) = to_plain_go acc post := by
  simp [to_plain_go, segChar, segTag]

/-! ## C7 — totality and caret clamping -/

theorem finishCaret_le (st : RState) : finishCaret st ≤ st.result.length := by
  simp only [finishCaret]
  split <;> split <;> omega

theorem mem_takeToken_fst {l : List Char} {x : Char} (h : x ∈ (takeToken l).1) : x ∈ l := by
  have := takeToken_append l
  rw [← this]
  exact List.mem_append_left _ h

theorem mem_takeToken_snd {l : List Char} {x : Char} (h : x ∈ (takeToken l).2) : x ∈ l := by
  have := takeToken_append l
  rw [← this]
  exact List.mem_append_right _ h

theorem contains_eq_false_of_not_mem {l : List Char} {c : Char} (h : c ∉ l) :
    l.contains c = false := by
  by_contra hc
  have h1 : l.contains c = true := by simpa using hc
  have h2 : c ∈ l := by
    have := (by simp [List.contains, List.elem_iff] :
      l.contains c = true ↔ c ∈ l)
    exact this.mp h1
  exact h h2

theorem mem_netlocOf {tail : List Char} {x : Char} (h : x ∈ netlocOf tail) : x ∈ tail := by
  have h1 : List.Sublist (netlocOf tail) (stripUnsafeChars tail) := List.takeWhile_sublist _
  have h2 : List.Sublist (stripUnsafeChars tail) tail := List.filter_sublist tail
  exact (h1.trans h2).subset h

/-- The `urlparse` model only raises when a square bracket occurs in the
token. -/
theorem token_is_url_tag_ne_none (tok : String)
    (h1 : '[' ∉ tok.data) (h2 : ']' ∉ tok.data) : token_is_url_tag tok ≠ none := by
  unfold token_is_url_tag
  split
  · have hdrop : ∀ n, List.Sublist (tok.data.drop n) tok.data :=
      fun n => List.drop_sublist n tok.data
    set tail := if startsWithL "@https://".data tok.data then tok.data.drop 9
      else tok.data.drop 8 with htail
    have htail_sub : List.Sublist tail tok.data := by
      rw [htail]; split <;> exact hdrop _
    have hnl1 : '[' ∉ netlocOf tail := fun hm => h1 (htail_sub.subset (mem_netlocOf hm))
    have hnl2 : ']' ∉ netlocOf tail := fun hm => h2 (htail_sub.subset (mem_netlocOf hm))
    simp only [contains_eq_false_of_not_mem hnl1, contains_eq_false_of_not_mem hnl2]
    simp
  · simp

theorem classify_ne_none_no_brackets (sc np pp po : List String) (pl : List Plugin)
    (tokL : List Char) (nd : Option Char)
    (h1 : '[' ∉ tokL) (h2 : ']' ∉ tokL) :
    classify sc np pp po pl ⟨tokL⟩ nd ≠ none := by
  have hu := token_is_url_tag_ne_none ⟨tokL⟩ h1 h2
  cases hcase : token_is_url_tag ⟨tokL⟩ with
  | none => exact absurd hcase hu
  | some u =>
    unfold classify
    simp only [hcase]
    split_ifs <;> simp

theorem build_loop_isSome_no_brackets (sc np pp po : List String) (pl : List Plugin) (c : Int) :
    ∀ (n : Nat) (l : List Char) (st : RState), l.length ≤ n →
      '[' ∉ l → ']' ∉ l →
      ∃ st', build_loop sc np pp po pl c l st = some st' := by
  intro n
  induction n with
  | zero =>
    intro l st hl _ _
    have hnil : l = [] := List.length_eq_zero.mp (Nat.le_zero.mp hl)
    subst hnil
    exact ⟨st, build_loop_nil sc np pp po pl c st⟩
  | succ n ih =>
    intro l st hl h1 h2
    match l with
    | [] => exact ⟨st, build_loop_nil sc np pp po pl c st⟩
    | ch :: rest =>
      simp only [List.length_cons] at hl
      by_cases hd : is_delim ch = true
      · obtain ⟨st', hst'⟩ := ih rest (delimStep c ch st) (by omega)
          (fun hm => h1 (by simp [hm])) (fun hm => h2 (by simp [hm]))
        exact ⟨st', by rw [build_loop_cons_delim sc np pp po pl c ch rest st hd]; exact hst'⟩
      · have hd' : is_delim ch = false := by simpa using hd
        have htok1 : '[' ∉ (takeToken (ch :: rest)).1 := fun hm => h1 (mem_takeToken_fst hm)
        have htok2 : ']' ∉ (takeToken (ch :: rest)).1 := fun hm => h2 (mem_takeToken_fst hm)
        have hrest1 : '[' ∉ (takeToken (ch :: rest)).2 := fun hm => h1 (mem_takeToken_snd hm)
        have hrest2 : ']' ∉ (takeToken (ch :: rest)).2 := fun hm => h2 (mem_takeToken_snd hm)
        have hlt := takeToken_snd_lt ch rest hd'
        have hcl := classify_ne_none_no_brackets sc np pp po pl ((takeToken (ch :: rest)).1)
          ((takeToken (ch :: rest)).2.head?) htok1 htok2
        cases hcase : classify sc np pp po pl ⟨(takeToken (ch :: rest)).1⟩
            ((takeToken (ch :: rest)).2.head?) with
        | none => exact absurd hcase hcl
        | some r =>
          cases r with
          | some rd =>
            obtain ⟨st', hst'⟩ := ih ((takeToken (ch :: rest)).2)
              (pillStep c rd.1 rd.2 ((takeToken (ch :: rest)).1).length st)
              (by omega) hrest1 hrest2
            refine ⟨st', ?_⟩
            rw [build_loop_cons_tok_pill sc np pp po pl c ch rest st rd.1 rd.2 hd'
              (by rw [hcase])]
            exact hst'
          | none =>
            obtain ⟨st', hst'⟩ := ih ((takeToken (ch :: rest)).2)
              (plainStep c ((takeToken (ch :: rest)).1) st) (by omega) hrest1 hrest2
            refine ⟨st', ?_⟩
            rw [build_loop_cons_tok_plain sc np pp po pl c ch rest st hd' hcase]
            exact hst'

/-- C7 counterexample: the render pass *can* raise.  On the text `@http://[ `
the token `@http://[` reaches `urlparse`, which raises
`ValueError("Invalid IPv6 URL")`; nothing in `build_input_attributed_with_caret`
catches it, so no rendered buffer or caret is produced at all. -/
theorem C7_counterexample :
    build_input_attributed_with_caret "@http://[ " [] [] 0 = none := by decide

/-- C7 (amended): for every input text and every integer caret index, whenever
`build_input_attributed_with_caret` returns at all (i.e. no `urlparse`
`ValueError` — mismatched square brackets in a URL-candidate token's
authority, or the NFKC netloc check on a non-ASCII authority — propagates),
the returned caret index satisfies `0 ≤ k ≤ buffer length`; and on any ASCII
text containing no square bracket it always returns (for ASCII input the
bracket check is `urlparse`'s only error path). -/
theorem C7_amended :
    (∀ (text : String) (sc : List String) (pl : List Plugin) (c : Int)
        (buf : List RSeg) (k : Nat),
      build_input_attributed_with_caret text sc pl c = some (buf, k) → k ≤ buf.length) ∧
    (∀ (text : String) (sc : List String) (pl : List Plugin) (c : Int),
      isascii text.data = true → '[' ∉ text.data → ']' ∉ text.data →
      (build_input_attributed_with_caret text sc pl c).isSome = true) := by
  constructor
  · intro text sc pl c buf k h
    simp only [build_input_attributed_with_caret] at h
    cases hcase : build_loop sc (_collect_prefixes pl).1 (_collect_prefixes pl).2.1
        (_collect_prefixes pl).2.2 pl c text.data
        { result := [], plain_index := 0, caret_attr_index := 0, caret_set := false } with
    | none => rw [hcase] at h; cases h
    | some st =>
      rw [hcase] at h
      simp only [Option.some.injEq, Prod.mk.injEq] at h
      obtain ⟨hbuf, hk⟩ := h
      rw [← hbuf, ← hk]
      exact finishCaret_le st
  · intro text sc pl c _ h1 h2
    simp only [build_input_attributed_with_caret]
    obtain ⟨st', hst'⟩ := build_loop_isSome_no_brackets sc (_collect_prefixes pl).1
      (_collect_prefixes pl).2.1 (_collect_prefixes pl).2.2 pl c text.data.length text.data
      { result := [], plain_index := 0, caret_attr_index := 0, caret_set := false }
      (le_refl _) h1 h2
    rw [hst']
    rfl

/-- Witness for `C7_amended` at the one-character text `a`. -/
theorem C7_amended_witness :
    (0 : Nat) ≤ ([RSeg.ch 'a'] : List RSeg).length ∧
    (build_input_attributed_with_caret "a" [] [] 0).isSome = true :=
  ⟨C7_amended.1 "a" [] [] 0 [RSeg.ch 'a'] 0 (by decide),
   C7_amended.2 "a" [] [] 0 (by decide) (by decide) (by decide)⟩

/-! ## C9 — plugin failures fall back to the raw tag -/

theorem delimStep_mono (c1 c2 : Int) (ch : Char) (st1 st2 : RState)
    (hres : st1.result = st2.result) (hplain : st1.plain_index = st2.plain_index)
    (hc12 : c1 ≤ c2)
    (hA : st2.caret_set = true → st1.caret_set = true)
    (hB : st1.caret_set = true → st2.caret_set = true →
      st1.caret_attr_index ≤ st2.caret_attr_index)
    (hC1 : st1.caret_set = true → st1.caret_attr_index ≤ st1.result.length)
    (hC2 : st2.caret_set = true → st2.caret_attr_index ≤ st2.result.length)
    (hE1 : st1.caret_set = false → (st1.plain_index : Int) + 1 ≤ c1) :
    (delimStep c1 ch st1).result = (delimStep c2 ch st2).result ∧
    (delimStep c1 ch st1).plain_index = (delimStep c2 ch st2).plain_index ∧
    ((delimStep c2 ch st2).caret_set = true → (delimStep c1 ch st1).caret_set = true) ∧
    ((delimStep c1 ch st1).caret_set = true → (delimStep c2 ch st2).caret_set = true →
      (delimStep c1 ch st1).caret_attr_index ≤ (delimStep c2 ch st2).caret_attr_index) ∧
    ((delimStep c1 ch st1).caret_set = true →
      (delimStep c1 ch st1).caret_attr_index ≤ (delimStep c1 ch st1).result.length) ∧
    ((delimStep c2 ch st2).caret_set = true →
      (delimStep c2 ch st2).caret_attr_index ≤ (delimStep c2 ch st2).result.length) ∧
    ((delimStep c1 ch st1).caret_set = false →
      ((delimStep c1 ch st1).plain_index : Int) + 1 ≤ c1) := by
  have hlen : st1.result.length = st2.result.length := by rw [hres]
  by_cases hs1 : st1.caret_set = true <;> by_cases hs2 : st2.caret_set = true
  · have hb := hB hs1 hs2
    have hc1 := hC1 hs1
    have hc2 := hC2 hs2
    refine ⟨by simp [delimStep, hres], by simp [delimStep, hplain], ?_, ?_, ?_, ?_, ?_⟩ <;>
      simp only [delimStep, hs1, hs2, Bool.not_true, Bool.false_and, Bool.true_or,
        Bool.or_true, Bool.false_eq_true, if_false, decide_eq_true_eq,
        decide_eq_false_iff_not, List.length_append, List.length_cons, List.length_nil] <;>
      (intros; (try split_ifs) <;> (first | rfl | trivial | omega))
  · have hs2f : st2.caret_set = false := by simpa using hs2
    have hc1 := hC1 hs1
    refine ⟨by simp [delimStep, hres], by simp [delimStep, hplain], ?_, ?_, ?_, ?_, ?_⟩ <;>
      simp only [delimStep, hs1, hs2f, Bool.not_true, Bool.not_false, Bool.false_and,
        Bool.true_and, Bool.true_or, Bool.false_or, Bool.false_eq_true, if_false,
        decide_eq_true_eq, decide_eq_false_iff_not, List.length_append, List.length_cons,
        List.length_nil] <;>
      (intros; (try split_ifs) <;> (first | rfl | trivial | omega))
  · exact absurd (hA hs2) hs1
  · have hs1f : st1.caret_set = false := by simpa using hs1
    have hs2f : st2.caret_set = false := by simpa using hs2
    have hE := hE1 hs1f
    refine ⟨by simp [delimStep, hres], by simp [delimStep, hplain], ?_, ?_, ?_, ?_, ?_⟩ <;>
      simp only [delimStep, hs1f, hs2f, Bool.not_false, Bool.true_and, Bool.false_or,
        Bool.or_false, decide_eq_true_eq, decide_eq_false_iff_not, List.length_append,
        List.length_cons, List.length_nil] <;>
      (intros; (try split_ifs) <;> (first | rfl | trivial | omega))

theorem pillStep_mono (c1 c2 : Int) (raw disp : String) (L : Nat) (st1 st2 : RState)
    (hres : st1.result = st2.result) (hplain : st1.plain_index = st2.plain_index)
    (hc12 : c1 ≤ c2)
    (hA : st2.caret_set = true → st1.caret_set = true)
    (hB : st1.caret_set = true → st2.caret_set = true →
      st1.caret_attr_index ≤ st2.caret_attr_index)
    (hC1 : st1.caret_set = true → st1.caret_attr_index ≤ st1.result.length)
    (hC2 : st2.caret_set = true → st2.caret_attr_index ≤ st2.result.length)
    (hE1 : st1.caret_set = false → (st1.plain_index : Int) ≤ c1) :
    (pillStep c1 raw disp L st1).result = (pillStep c2 raw disp L st2).result ∧
    (pillStep c1 raw disp L st1).plain_index = (pillStep c2 raw disp L st2).plain_index ∧
    ((pillStep c2 raw disp L st2).caret_set = true →
      (pillStep c1 raw disp L st1).caret_set = true) ∧
    ((pillStep c1 raw disp L st1).caret_set = true →
      (pillStep c2 raw disp L st2).caret_set = true →
      (pillStep c1 raw disp L st1).caret_attr_index
        ≤ (pillStep c2 raw disp L st2).caret_attr_index) ∧
    ((pillStep c1 raw disp L st1).caret_set = true →
      (pillStep c1 raw disp L st1).caret_attr_index
        ≤ (pillStep c1 raw disp L st1).result.length) ∧
    ((pillStep c2 raw disp L st2).caret_set = true →
      (pillStep c2 raw disp L st2).caret_attr_index
        ≤ (pillStep c2 raw disp L st2).result.length) ∧
    ((pillStep c1 raw disp L st1).caret_set = false →
      ((pillStep c1 raw disp L st1).plain_index : Int) + 1 ≤ c1) := by
  have hlen : st1.result.length = st2.result.length := by rw [hres]
  by_cases hs1 : st1.caret_set = true <;> by_cases hs2 : st2.caret_set = true
  · have hb := hB hs1 hs2
    have hc1 := hC1 hs1
    have hc2 := hC2 hs2
    refine ⟨by simp [pillStep, hres], by simp [pillStep, hplain], ?_, ?_, ?_, ?_, ?_⟩ <;>
      simp only [pillStep, hs1, hs2, Bool.not_true, Bool.false_and, Bool.true_or,
        Bool.or_true, Bool.false_eq_true, if_false, decide_eq_true_eq,
        decide_eq_false_iff_not, List.length_append, List.length_cons, List.length_nil] <;>
      (intros; (try split_ifs) <;> (first | rfl | trivial | omega))
  · have hs2f : st2.caret_set = false := by simpa using hs2
    have hc1 := hC1 hs1
    refine ⟨by simp [pillStep, hres], by simp [pillStep, hplain], ?_, ?_, ?_, ?_, ?_⟩ <;>
      simp only [pillStep, hs1, hs2f, Bool.not_true, Bool.not_false, Bool.false_and,
        Bool.true_and, Bool.true_or, Bool.false_or, Bool.false_eq_true, if_false,
        decide_eq_true_eq, decide_eq_false_iff_not, List.length_append, List.length_cons,
        List.length_nil] <;>
      (intros; (try split_ifs) <;> (first | rfl | trivial | omega))
  · exact absurd (hA hs2) hs1
  · have hs1f : st1.caret_set = false := by simpa using hs1
    have hs2f : st2.caret_set = false := by simpa using hs2
    have hE := hE1 hs1f
    refine ⟨by simp [pillStep, hres], by simp [pillStep, hplain], ?_, ?_, ?_, ?_, ?_⟩ <;>
      simp only [pillStep, hs1f, hs2f, Bool.not_false, Bool.true_and, Bool.false_or,
        Bool.or_false, decide_eq_true_eq, decide_eq_false_iff_not, List.length_append,
        List.length_cons, List.length_nil] <;>
      (intros; (try split_ifs) <;> (first | rfl | trivial | omega))

theorem plainStep_mono (c1 c2 : Int) (tokL : List Char) (st1 st2 : RState)
    (hres : st1.result = st2.result) (hplain : st1.plain_index = st2.plain_index)
    (hc12 : c1 ≤ c2)
    (hA : st2.caret_set = true → st1.caret_set = true)
    (hB : st1.caret_set = true → st2.caret_set = true →
      st1.caret_attr_index ≤ st2.caret_attr_index)
    (hC1 : st1.caret_set = true → st1.caret_attr_index ≤ st1.result.length)
    (hC2 : st2.caret_set = true → st2.caret_attr_index ≤ st2.result.length)
    (hE1 : st1.caret_set = false → (st1.plain_index : Int) ≤ c1) :
    (plainStep c1 tokL st1).result = (plainStep c2 tokL st2).result ∧
    (plainStep c1 tokL st1).plain_index = (plainStep c2 tokL st2).plain_index ∧
    ((plainStep c2 tokL st2).caret_set = true → (plainStep c1 tokL st1).caret_set = true) ∧
    ((plainStep c1 tokL st1).caret_set = true → (plainStep c2 tokL st2).caret_set = true →
      (plainStep c1 tokL st1).caret_attr_index ≤ (plainStep c2 tokL st2).caret_attr_index) ∧
    ((plainStep c1 tokL st1).caret_set = true →
      (plainStep c1 tokL st1).caret_attr_index ≤ (plainStep c1 tokL st1).result.length) ∧
    ((plainStep c2 tokL st2).caret_set = true →
      (plainStep c2 tokL st2).caret_attr_index ≤ (plainStep c2 tokL st2).result.length) ∧
    ((plainStep c1 tokL st1).caret_set = false →
      ((plainStep c1 tokL st1).plain_index : Int) + 1 ≤ c1) := by
  have hlen : st1.result.length = st2.result.length := by rw [hres]
  by_cases hs1 : st1.caret_set = true <;> by_cases hs2 : st2.caret_set = true
  · have hb := hB hs1 hs2
    have hc1 := hC1 hs1
    have hc2 := hC2 hs2
    refine ⟨by simp [plainStep, hres], by simp [plainStep, hplain], ?_, ?_, ?_, ?_, ?_⟩ <;>
      simp only [plainStep, hs1, hs2, Bool.not_true, Bool.false_and, Bool.true_or,
        Bool.or_true, Bool.false_eq_true, if_false, decide_eq_true_eq,
        decide_eq_false_iff_not, List.length_append, List.length_map] <;>
      (intros; (try split_ifs) <;> (first | rfl | trivial | omega))
  · have hs2f : st2.caret_set = false := by simpa using hs2
    have hc1 := hC1 hs1
    refine ⟨by simp [plainStep, hres], by simp [plainStep, hplain], ?_, ?_, ?_, ?_, ?_⟩ <;>
      simp only [plainStep, hs1, hs2f, Bool.not_true, Bool.not_false, Bool.false_and,
        Bool.true_and, Bool.true_or, Bool.false_or, Bool.false_eq_true, if_false,
        decide_eq_true_eq, decide_eq_false_iff_not, List.length_append, List.length_map] <;>
      (intros; (try split_ifs) <;> (first | rfl | trivial | omega))
  · exact absurd (hA hs2) hs1
  · have hs1f : st1.caret_set = false := by simpa using hs1
    have hs2f : st2.caret_set = false := by simpa using hs2
    have hE := hE1 hs1f
    refine ⟨by simp [plainStep, hres], by simp [plainStep, hplain], ?_, ?_, ?_, ?_, ?_⟩ <;>
      simp only [plainStep, hs1f, hs2f, Bool.not_false, Bool.true_and, Bool.false_or,
        Bool.or_false, decide_eq_true_eq, decide_eq_false_iff_not, List.length_append,
        List.length_map] <;>
      (intros; (try split_ifs) <;> (first | rfl | trivial | omega))

theorem finish_compare (st1 st2 : RState)
    (hres : st1.result = st2.result)
    (hA : st2.caret_set = true → st1.caret_set = true)
    (hB : st1.caret_set = true → st2.caret_set = true →
      st1.caret_attr_index ≤ st2.caret_attr_index)
    (hC1 : st1.caret_set = true → st1.caret_attr_index ≤ st1.result.length)
    (hC2 : st2.caret_set = true → st2.caret_attr_index ≤ st2.result.length) :
    finishCaret st1 ≤ finishCaret st2 := by
  have hlen : st1.result.length = st2.result.length := by rw [hres]
  by_cases hs1 : st1.caret_set = true
  · by_cases hs2 : st2.caret_set = true
    · rw [finishCaret_set st1 hs1 (hC1 hs1), finishCaret_set st2 hs2 (hC2 hs2)]
      exact hB hs1 hs2
    · have hs2f : st2.caret_set = false := by simpa using hs2
      rw [finishCaret_set st1 hs1 (hC1 hs1), finishCaret_unset st2 hs2f]
      have := hC1 hs1
      omega
  · have hs1f : st1.caret_set = false := by simpa using hs1
    have hs2f : st2.caret_set = false := by
      by_contra h
      exact hs1 (hA (by simpa using h))
    rw [finishCaret_unset st1 hs1f, finishCaret_unset st2 hs2f]
    omega

theorem mono_loop (sc np pp po : List String) (pl : List Plugin) (c1 c2 : Int) :
    ∀ (n : Nat) (l : List Char) (st1 st2 st1' st2' : RState),
      l.length ≤ n →
      st1.result = st2.result →
      st1.plain_index = st2.plain_index →
      c1 ≤ c2 →
      (st2.caret_set = true → st1.caret_set = true) →
      (st1.caret_set = true → st2.caret_set = true →
        st1.caret_attr_index ≤ st2.caret_attr_index) →
      (st1.caret_set = true → st1.caret_attr_index ≤ st1.result.length) →
      (st2.caret_set = true → st2.caret_attr_index ≤ st2.result.length) →
      (st1.caret_set = false →
        ((st1.plain_index : Int) + 1 ≤ c1 ∨
          ((st1.plain_index : Int) ≤ c1 ∧ l.head?.all (fun ch => !is_delim ch) = true))) →
      build_loop sc np pp po pl c1 l st1 = some st1' →
      build_loop sc np pp po pl c2 l st2 = some st2' →
      finishCaret st1' ≤ finishCaret st2' := by
  intro n
  induction n with
  | zero =>
    intro l st1 st2 st1' st2' hl hres hplain hc12 hA hB hC1 hC2 hE hb1 hb2
    have hnil : l = [] := List.length_eq_zero.mp (Nat.le_zero.mp hl)
    subst hnil
    rw [build_loop_nil] at hb1 hb2
    cases hb1; cases hb2
    exact finish_compare st1 st2 hres hA hB hC1 hC2
  | succ n ih =>
    intro l st1 st2 st1' st2' hl hres hplain hc12 hA hB hC1 hC2 hE hb1 hb2
    match l with
    | [] =>
      rw [build_loop_nil] at hb1 hb2
      cases hb1; cases hb2
      exact finish_compare st1 st2 hres hA hB hC1 hC2
    | ch :: rest =>
      simp only [List.length_cons] at hl
      by_cases hd : is_delim ch = true
      · rw [build_loop_cons_delim sc np pp po pl c1 ch rest st1 hd] at hb1
        rw [build_loop_cons_delim sc np pp po pl c2 ch rest st2 hd] at hb2
        have hE1 : st1.caret_set = false → (st1.plain_index : Int) + 1 ≤ c1 := by
          intro h
          rcases hE h with h' | ⟨_, hh⟩
          · exact h'
          · rw [List.head?_cons] at hh
            simp [hd] at hh
        obtain ⟨m1, m2, m3, m4, m5, m6, m7⟩ :=
          delimStep_mono c1 c2 ch st1 st2 hres hplain hc12 hA hB hC1 hC2 hE1
        exact ih rest _ _ st1' st2' (by omega) m1 m2 hc12 m3 m4 m5 m6
          (fun h => Or.inl (m7 h)) hb1 hb2
      · have hd' : is_delim ch = false := by simpa using hd
        have hE1 : st1.caret_set = false → (st1.plain_index : Int) ≤ c1 := by
          intro h
          rcases hE h with h' | ⟨h'', _⟩
          · omega
          · exact h''
        have hlt := takeToken_snd_lt ch rest hd'
        cases hcl : classify sc np pp po pl ⟨(takeToken (ch :: rest)).1⟩
            ((takeToken (ch :: rest)).2.head?) with
        | none =>
          rw [build_loop_cons_tok_raise sc np pp po pl c1 ch rest st1 hd' hcl] at hb1
          cases hb1
        | some r =>
          cases r with
          | some rd =>
            rw [build_loop_cons_tok_pill sc np pp po pl c1 ch rest st1 rd.1 rd.2 hd'
              (by rw [hcl])] at hb1
            rw [build_loop_cons_tok_pill sc np pp po pl c2 ch rest st2 rd.1 rd.2 hd'
              (by rw [hcl])] at hb2
            obtain ⟨m1, m2, m3, m4, m5, m6, m7⟩ :=
              pillStep_mono c1 c2 rd.1 rd.2 ((takeToken (ch :: rest)).1).length st1 st2
                hres hplain hc12 hA hB hC1 hC2 hE1
            exact ih _ _ _ st1' st2' (by omega) m1 m2 hc12 m3 m4 m5 m6
              (fun h => Or.inl (m7 h)) hb1 hb2
          | none =>
            rw [build_loop_cons_tok_plain sc np pp po pl c1 ch rest st1 hd' hcl] at hb1
            rw [build_loop_cons_tok_plain sc np pp po pl c2 ch rest st2 hd' hcl] at hb2
            obtain ⟨m1, m2, m3, m4, m5, m6, m7⟩ :=
              plainStep_mono c1 c2 ((takeToken (ch :: rest)).1) st1 st2
                hres hplain hc12 hA hB hC1 hC2 hE1
            exact ih _ _ _ st1' st2' (by omega) m1 m2 hc12 m3 m4 m5 m6
              (fun h => Or.inl (m7 h)) hb1 hb2

/-- C2 counterexample: caret mapping is *not* monotone on texts beginning with
a delimiter.  On the text `" a"` (space, then `a`) the caret at plain index 0
never latches (the delimiter rule only covers index 1 and the token covers
`[1, 2]`), so it is clamped to the end of the rendered buffer: index 0 maps to
rendered index 2 while index 1 maps to rendered index 1. -/
theorem C2_counterexample :
    ¬ (∀ (c1 c2 : Int) (b1 b2 : List RSeg) (k1 k2 : Nat),
        0 ≤ c1 → c1 ≤ c2 → c2 ≤ ((" a" : String).length : Int) →
        build_input_attributed_with_caret " a" [] [] c1 = some (b1, k1) →
        build_input_attributed_with_caret " a" [] [] c2 = some (b2, k2) →
        k1 ≤ k2) := by
  intro hmono
  have h0 : build_input_attributed_with_caret " a" [] [] 0
      = some ([RSeg.ch ' ', RSeg.ch 'a'], 2) := by decide
  have h1 : build_input_attributed_with_caret " a" [] [] 1
      = some ([RSeg.ch ' ', RSeg.ch 'a'], 1) := by decide
  have := hmono 0 1 [RSeg.ch ' ', RSeg.ch 'a'] [RSeg.ch ' ', RSeg.ch 'a'] 2 1
    (by omega) (by omega) (by decide) h0 h1
  omega

/-- C2 (amended): for a fixed text whose first character is not a delimiter
(space, newline, tab), and a fixed shortcut and plugin set, the rendered
caret index returned by `build_input_attributed_with_caret` is non-decreasing
in `caret_plain_index` over `[0, len(text)]` (whenever the render returns). -/
theorem C2_amended (text : String) (sc : List String) (pl : List Plugin)
    (c1 c2 : Int) (b1 b2 : List RSeg) (k1 k2 : Nat)
    (hfirst : text.data.head?.all (fun ch => !is_delim ch) = true)
    (h0 : 0 ≤ c1) (h12 : c1 ≤ c2) (hlen : c2 ≤ (text.length : Int))
    (hb1 : build_input_attributed_with_caret text sc pl c1 = some (b1, k1))
    (hb2 : build_input_attributed_with_caret text sc pl c2 = some (b2, k2)) :
    k1 ≤ k2 := by
  simp only [build_input_attributed_with_caret] at hb1 hb2
  cases hc1 : build_loop sc (_collect_prefixes pl).1 (_collect_prefixes pl).2.1
      (_collect_prefixes pl).2.2 pl c1 text.data
      { result := [], plain_index := 0, caret_attr_index := 0, caret_set := false } with
  | none => rw [hc1] at hb1; cases hb1
  | some st1' =>
    cases hc2 : build_loop sc (_collect_prefixes pl).1 (_collect_prefixes pl).2.1
        (_collect_prefixes pl).2.2 pl c2 text.data
        { result := [], plain_index := 0, caret_attr_index := 0, caret_set := false } with
    | none => rw [hc2] at hb2; cases hb2
    | some st2' =>
      rw [hc1] at hb1
      rw [hc2] at hb2
      simp only [Option.some.injEq, Prod.mk.injEq] at hb1 hb2
      rw [← hb1.2, ← hb2.2]
      exact mono_loop sc (_collect_prefixes pl).1 (_collect_prefixes pl).2.1
        (_collect_prefixes pl).2.2 pl c1 c2 text.data.length text.data
        { result := [], plain_index := 0, caret_attr_index := 0, caret_set := false }
        { result := [], plain_index := 0, caret_attr_index := 0, caret_set := false }
        st1' st2' (le_refl _) rfl rfl h12
        (fun h => by cases h) (fun h _ => by cases h) (fun h => by cases h)
        (fun h => by cases h)
        (fun _ => Or.inr ⟨h0, hfirst⟩) hc1 hc2

/-- Witness for `C2_amended`: text `ab` with carets 0 and 1. -/
theorem C2_amended_witness : (0 : Nat) ≤ 1 :=
  C2_amended "ab" [] [] 0 1 [RSeg.ch 'a', RSeg.ch 'b'] [RSeg.ch 'a', RSeg.ch 'b'] 0 1
    (by decide) (by omega) (by omega) (by decide) (by decide) (by decide)

/-! ## An items-level view of the render loop

To reason about round-trips, the input text is described as a list of items —
single delimiter characters and whole tokens — such that the render loop
consumes exactly one item per iteration (`WFItems` states that the scanner
reproduces each token).  `segsOf` predicts the rendered segments. -/

inductive Item where
  | d (c : Char)
  | t (tok : String)
deriving DecidableEq, Repr

def flatItems : List Item → List Char
  | [] => []
  | .d c :: r => c :: flatItems r
  | .t tok :: r => tok.data ++ flatItems r

/-- The items faithfully describe one loop iteration each. -/
def WFItems : List Item → Prop
  | [] => True
  | .d c :: r => is_delim c = true ∧ WFItems r
  | .t tok :: r => tok.data ≠ [] ∧ is_delim tok.data.headI = false ∧
      takeToken (tok.data ++ flatItems r) = (tok.data, flatItems r) ∧ WFItems r

/-- The rendered segments the loop emits for these items (`none` = the
`urlparse` `ValueError` propagates). -/
def segsOf (sc np pp po : List String) (pl : List Plugin) : List Item → Option (List RSeg)
  | [] => some []
  | .d c :: r => (segsOf sc np pp po pl r).map (fun s => RSeg.ch c :: s)
  | .t tok :: r =>
    match classify sc np pp po pl tok (flatItems r).head? with
    | none => none
    | some none => (segsOf sc np pp po pl r).map (fun s => tok.data.map RSeg.ch ++ s)
    | some (some rd) => (segsOf sc np pp po pl r).map (fun s => RSeg.att (some rd.1) rd.2 :: s)

/-- The render loop on `flatItems items` emits exactly `segsOf items`. -/
theorem build_loop_refines (sc np pp po : List String) (pl : List Plugin) (c : Int) :
    ∀ (items : List Item) (st : RState), WFItems items →
      (segsOf sc np pp po pl items = none ∧
        build_loop sc np pp po pl c (flatItems items) st = none) ∨
      (∃ segs st', segsOf sc np pp po pl items = some segs ∧
        build_loop sc np pp po pl c (flatItems items) st = some st' ∧
        st'.result = st.result ++ segs) := by
  intro items
  induction items with
  | nil =>
    intro st _
    exact Or.inr ⟨[], st, rfl, build_loop_nil sc np pp po pl c st, by simp⟩
  | cons it r ih =>
    intro st hwf
    cases it with
    | d ch =>
      obtain ⟨hd, hwf'⟩ := hwf
      rcases ih (delimStep c ch st) hwf' with ⟨hs, hb⟩ | ⟨segs, st', hs, hb, hres⟩
      · left
        refine ⟨by simp only [segsOf, hs, Option.map_none'], ?_⟩
        rw [show flatItems (Item.d ch :: r) = ch :: flatItems r from rfl,
          build_loop_cons_delim sc np pp po pl c ch (flatItems r) st hd]
        exact hb
      · right
        refine ⟨RSeg.ch ch :: segs, st', by simp only [segsOf, hs, Option.map_some'], ?_, ?_⟩
        · rw [show flatItems (Item.d ch :: r) = ch :: flatItems r from rfl,
            build_loop_cons_delim sc np pp po pl c ch (flatItems r) st hd]
          exact hb
        · rw [hres]
          simp [delimStep]
    | t tok =>
      obtain ⟨hne, hhead, hscan, hwf'⟩ := hwf
      rcases htok : tok.data with _ | ⟨ch, tl⟩
      · exact absurd htok hne
      have hflat : flatItems (Item.t tok :: r) = ch :: (tl ++ flatItems r) := by
        rw [show flatItems (Item.t tok :: r) = tok.data ++ flatItems r from rfl, htok]
        rfl
      have hhead' : is_delim ch = false := by
        rw [htok] at hhead
        simpa [List.headI] using hhead
      have hfst : (takeToken (ch :: (tl ++ flatItems r))).1 = tok.data := by
        rw [← List.cons_append, ← htok, hscan]
      have hsnd : (takeToken (ch :: (tl ++ flatItems r))).2 = flatItems r := by
        rw [← List.cons_append, ← htok, hscan]
      have hstr : (⟨(takeToken (ch :: (tl ++ flatItems r))).1⟩ : String) = tok := by
        rw [hfst]
      cases hcl : classify sc np pp po pl tok (flatItems r).head? with
      | none =>
        left
        refine ⟨by simp only [segsOf, hcl], ?_⟩
        rw [hflat]
        apply build_loop_cons_tok_raise sc np pp po pl c ch (tl ++ flatItems r) st hhead'
        rw [hstr, hsnd]
        exact hcl
      | some rr =>
        cases rr with
        | some rd =>
          rcases ih (pillStep c rd.1 rd.2 tok.data.length st) hwf' with
            ⟨hs, hb⟩ | ⟨segs, st', hs, hb, hres⟩
          · left
            refine ⟨by simp only [segsOf, hcl, hs, Option.map_none'], ?_⟩
            rw [hflat, build_loop_cons_tok_pill sc np pp po pl c ch (tl ++ flatItems r) st
              rd.1 rd.2 hhead' (by rw [hstr, hsnd, hcl]), hsnd, hfst]
            exact hb
          · right
            refine ⟨RSeg.att (some rd.1) rd.2 :: segs, st',
              by simp only [segsOf, hcl, hs, Option.map_some'], ?_, ?_⟩
            · rw [hflat, build_loop_cons_tok_pill sc np pp po pl c ch (tl ++ flatItems r) st
                rd.1 rd.2 hhead' (by rw [hstr, hsnd, hcl]), hsnd, hfst]
              exact hb
            · rw [hres]
              simp [pillStep]
        | none =>
          rcases ih (plainStep c tok.data st) hwf' with
            ⟨hs, hb⟩ | ⟨segs, st', hs, hb, hres⟩
          · left
            refine ⟨by simp only [segsOf, hcl, hs, Option.map_none'], ?_⟩
            rw [hflat, build_loop_cons_tok_plain sc np pp po pl c ch (tl ++ flatItems r) st
              hhead' (by rw [hstr, hsnd, hcl]), hsnd, hfst]
            exact hb
          · right
            refine ⟨tok.data.map RSeg.ch ++ segs, st',
              by simp only [segsOf, hcl, hs, Option.map_some'], ?_, ?_⟩
            · rw [hflat, build_loop_cons_tok_plain sc np pp po pl c ch (tl ++ flatItems r) st
                hhead' (by rw [hstr, hsnd, hcl]), hsnd, hfst]
              exact hb
            · rw [hres]
              simp [plainStep, List.append_assoc]

/-- Conditions under which plain-text extraction of `segsOf items` recovers
`flatItems items` exactly: plain-emitted tokens contain no attachment
placeholder character and are never directly followed by another token. -/
def PlainSafe (sc np pp po : List String) (pl : List Plugin) : List Item → Prop
  | [] => True
  | .d _ :: r => PlainSafe sc np pp po pl r
  | .t tok :: r =>
      (classify sc np pp po pl tok (flatItems r).head? = some none →
        objChar ∉ tok.data ∧ (∀ tok2 r2, r ≠ Item.t tok2 :: r2)) ∧
      PlainSafe sc np pp po pl r

theorem is_delim_cases {c : Char} (h : is_delim c = true) :
    c = ' ' ∨ c = '\n' ∨ c = '\t' := by
  simp only [is_delim, Bool.or_eq_true, beq_iff_eq] at h
  tauto

theorem delim_ne_objChar {c : Char} (h : is_delim c = true) : (c == objChar) = false := by
  rcases is_delim_cases h with rfl | rfl | rfl <;> decide

theorem endsWS_singleton (c : Char) : endsWS (String.mk [c]) = is_delim c := rfl

theorem needsLeadingSpace_concat (x : List String) (s : String) :
    needsLeadingSpace (x ++ [s]) = !endsWS s := by
  unfold needsLeadingSpace
  rw [List.getLast?_concat]

theorem strJoin_concat (x : List String) (s : String) :
    strJoin (x ++ [s]) = strJoin x ++ s := by
  rw [strJoin_append]
  simp [strJoin, str_append_empty, str_append_assoc]

theorem mk_append_mk (a b : List Char) :
    (String.mk a) ++ (String.mk b) = String.mk (a ++ b) := by
  apply string_ext
  simp [strdata_append]

theorem to_plain_go_chars (l : List Char) :
    ∀ (acc : List String) (rest : List RSeg), (∀ c ∈ l, (c == objChar) = false) →
    to_plain_go acc (l.map RSeg.ch ++ rest)
      = to_plain_go (acc ++ l.map (fun c => String.mk [c])) rest := by
  induction l with
  | nil => intro acc rest _; simp
  | cons c t ih =>
    intro acc rest h
    rw [List.map_cons, List.cons_append,
      to_plain_go_char acc c (t.map RSeg.ch ++ rest) (h c (by simp)),
      ih (acc ++ [String.mk [c]]) rest (fun x hx => h x (by simp [hx]))]
    simp [List.append_assoc]

theorem segsOf_d_eq (sc np pp po : List String) (pl : List Plugin) (c : Char)
    (r : List Item) :
    segsOf sc np pp po pl (Item.d c :: r)
      = (segsOf sc np pp po pl r).map (fun s => RSeg.ch c :: s) := rfl

theorem segsOf_t_eq (sc np pp po : List String) (pl : List Plugin) (tok : String)
    (r : List Item) :
    segsOf sc np pp po pl (Item.t tok :: r)
      = (match classify sc np pp po pl tok (flatItems r).head? with
         | none => none
         | some none => (segsOf sc np pp po pl r).map (fun s => tok.data.map RSeg.ch ++ s)
         | some (some rd) =>
            (segsOf sc np pp po pl r).map (fun s => RSeg.att (some rd.1) rd.2 :: s)) := rfl

/-- Master extraction lemma: on well-formed, plain-safe items the extraction
of the predicted rendered segments reproduces the flat text verbatim. -/
theorem to_plain_segs (sc np pp po : List String) (pl : List Plugin) :
    ∀ (items : List Item) (segs : List RSeg) (acc : List String),
      WFItems items → PlainSafe sc np pp po pl items →
      segsOf sc np pp po pl items = some segs →
      (needsLeadingSpace acc = false ∨ (∃ c2 r2, items = Item.d c2 :: r2) ∨ items = []) →
      strJoin (to_plain_go acc segs) = strJoin acc ++ String.mk (flatItems items) := by
  intro items
  induction items with
  | nil =>
    intro segs acc _ _ hsegs _
    simp only [segsOf, Option.some.injEq] at hsegs
    rw [← hsegs]
    simp only [to_plain_go, flatItems]
    rw [show String.mk [] = "" from rfl, str_append_empty]
  | cons it r ih =>
    intro segs acc hwf hps hsegs hinv
    cases it with
    | d ch =>
      obtain ⟨hd, hwf'⟩ := hwf
      rw [segsOf_d_eq] at hsegs
      cases hs' : segsOf sc np pp po pl r with
      | none => rw [hs'] at hsegs; cases hsegs
      | some segs' =>
        rw [hs'] at hsegs
        simp only [Option.map_some', Option.some.injEq] at hsegs
        rw [← hsegs, to_plain_go_char acc ch segs' (delim_ne_objChar hd)]
        rw [ih segs' (acc ++ [String.mk [ch]]) hwf' hps hs' (Or.inl (by
          rw [needsLeadingSpace_concat, endsWS_singleton, hd]
          rfl))]
        rw [strJoin_concat, str_append_assoc, mk_append_mk]
        rfl
    | t tok =>
      obtain ⟨hne, hhead, hscan, hwf'⟩ := hwf
      obtain ⟨hpsafe, hps'⟩ := hps
      have hlead : needsLeadingSpace acc = false := by
        rcases hinv with h | ⟨c2, r2, h⟩ | h
        · exact h
        · cases h
        · cases h
      rw [segsOf_t_eq] at hsegs
      cases hcl : classify sc np pp po pl tok (flatItems r).head? with
      | none => rw [hcl] at hsegs; cases hsegs
      | some rr =>
        cases rr with
        | some rd =>
          rw [hcl] at hsegs
          have hraw : rd.1 = tok :=
            classify_pill_raw sc np pp po pl tok ((flatItems r).head?) rd.1 rd.2
              (by rw [hcl])
          obtain ⟨dnext, hdnext, hddelim⟩ :=
            classify_pill_nd sc np pp po pl tok ((flatItems r).head?) rd (by rw [hcl])
          obtain ⟨c2, r2, hr⟩ : ∃ c2 r2, r = Item.d c2 :: r2 := by
            cases hrr : r with
            | nil => rw [hrr] at hdnext; cases hdnext
            | cons it2 r2 =>
              cases it2 with
              | d c2 => exact ⟨c2, r2, rfl⟩
              | t tok2 =>
                rw [hrr] at hdnext
                obtain ⟨hne2, hhead2, _, _⟩ : tok2.data ≠ [] ∧
                    is_delim tok2.data.headI = false ∧
                    takeToken (tok2.data ++ flatItems r2) = (tok2.data, flatItems r2) ∧
                    WFItems r2 := by rw [hrr] at hwf'; exact hwf'
                rcases h2 : tok2.data with _ | ⟨c0, t0⟩
                · exact absurd h2 hne2
                · rw [show flatItems (Item.t tok2 :: r2) = tok2.data ++ flatItems r2
                    from rfl, h2] at hdnext
                  simp only [List.cons_append, List.head?_cons, Option.some.injEq] at hdnext
                  rw [h2] at hhead2
                  simp only [List.headI] at hhead2
                  rw [← hdnext] at hddelim
                  rw [hddelim] at hhead2
                  cases hhead2
          subst hr
          have hc2 : is_delim c2 = true := by
            obtain ⟨h', _⟩ : is_delim c2 = true ∧ WFItems r2 := hwf'
            exact h'
          cases hs' : segsOf sc np pp po pl (Item.d c2 :: r2) with
          | none => rw [hs'] at hsegs; cases hsegs
          | some segs' =>
            rw [hs'] at hsegs
            simp only [Option.map_some', Option.some.injEq] at hsegs
            -- `segs'` starts with the delimiter character
            rw [segsOf_d_eq] at hs'
            cases hs2 : segsOf sc np pp po pl r2 with
            | none => rw [hs2] at hs'; cases hs'
            | some segs2 =>
              rw [hs2] at hs'
              simp only [Option.map_some', Option.some.injEq] at hs'
              rw [← hsegs, ← hs', to_plain_go_att_some]
              simp only [segChar, hc2, if_true, hlead, Bool.false_eq_true, if_false,
                List.append_nil]
              rw [ih (RSeg.ch c2 :: segs2) (acc ++ [rd.1]) hwf' hps'
                (by rw [segsOf_d_eq, hs2]; rfl) (Or.inr (Or.inl ⟨c2, r2, rfl⟩))]
              rw [strJoin_concat, str_append_assoc, hraw]
              have htokmk : tok = String.mk tok.data := rfl
              rw [htokmk, mk_append_mk]
              rfl
        | none =>
          rw [hcl] at hsegs
          obtain ⟨hobj, hnt⟩ := hpsafe hcl
          cases hs' : segsOf sc np pp po pl r with
          | none => rw [hs'] at hsegs; cases hsegs
          | some segs' =>
            rw [hs'] at hsegs
            simp only [Option.map_some', Option.some.injEq] at hsegs
            rw [← hsegs, to_plain_go_chars tok.data acc segs'
              (fun c hc => by
                have : c ≠ objChar := fun h => hobj (h ▸ hc)
                simpa using this)]
            rw [ih segs' (acc ++ tok.data.map (fun c => String.mk [c])) hwf' hps' hs' (by
              cases hrr : r with
              | nil => exact Or.inr (Or.inr rfl)
              | cons it2 r2 =>
                cases it2 with
                | d c2 => exact Or.inr (Or.inl ⟨c2, r2, rfl⟩)
                | t tok2 => exact absurd hrr (hnt tok2 r2))]
            rw [strJoin_append, strJoin_singletons, str_append_assoc, mk_append_mk]
            rfl

/-! ## C1 — round-trip for recognized, whitespace-terminated tokens -/

/-- The item decomposition the render loop actually follows on a text
(fuel-indexed like `buildF`; the fuel never runs out). -/
def chunksF : Nat → List Char → List Item
  | 0, _ => []
  | _ + 1, [] => []
  | f + 1, ch :: rest =>
    if is_delim ch then Item.d ch :: chunksF f rest
    else Item.t ⟨(takeToken (ch :: rest)).1⟩ :: chunksF f ((takeToken (ch :: rest)).2)

def chunksOf (l : List Char) : List Item := chunksF (l.length + 1) l

theorem chunksF_irrel : ∀ (f f' : Nat) (l : List Char), l.length < f → l.length < f' →
    chunksF f l = chunksF f' l := by
  intro f
  induction f with
  | zero => intro f' l h _; omega
  | succ g ih =>
    intro f' l h h'
    match f', l with
    | 0, l => omega
    | g' + 1, [] => rfl
    | g' + 1, ch :: rest =>
      simp only [chunksF]
      simp only [List.length_cons] at h h'
      by_cases hd : is_delim ch
      · simp only [hd, if_true]
        rw [ih g' rest (by omega) (by omega)]
      · simp only [hd, Bool.false_eq_true, if_false]
        have hlt := takeToken_snd_lt ch rest (by simpa using hd)
        rw [ih g' _ (by omega) (by omega)]

theorem chunksOf_delim (ch : Char) (rest : List Char) (hd : is_delim ch = true) :
    chunksOf (ch :: rest) = Item.d ch :: chunksOf rest := by
  simp only [chunksOf, List.length_cons, chunksF, hd, if_true]

theorem chunksOf_tok (ch : Char) (rest : List Char) (hd : is_delim ch = false) :
    chunksOf (ch :: rest)
      = Item.t ⟨(takeToken (ch :: rest)).1⟩ :: chunksOf ((takeToken (ch :: rest)).2) := by
  simp only [chunksOf, List.length_cons, chunksF, hd, Bool.false_eq_true, if_false]
  rw [chunksF_irrel _ _ _ (takeToken_snd_lt ch rest hd) (Nat.lt_succ_self _)]

/-- In quote-free text the scanner never enters the `@"` branch. -/
theorem takeToken_no_quote (l : List Char) (hq : '"' ∉ l) :
    takeToken l = (l.takeWhile (fun c => !is_delim c), l.dropWhile (fun c => !is_delim c)) := by
  match l with
  | [] => rfl
  | [a] => rfl
  | a :: b :: rest =>
    have hb : ¬(a = '@' ∧ b = '"') := by
      rintro ⟨_, rfl⟩
      exact hq (by simp)
    simp only [takeToken, if_neg hb]

/-- On quote-free, placeholder-free text the chunk decomposition is faithful,
well-formed, and plain-safe. -/
theorem chunks_spec (sc np pp po : List String) (pl : List Plugin) :
    ∀ (n : Nat) (l : List Char), l.length ≤ n → '"' ∉ l → objChar ∉ l →
      flatItems (chunksOf l) = l ∧ WFItems (chunksOf l) ∧
      PlainSafe sc np pp po pl (chunksOf l) := by
  intro n
  induction n with
  | zero =>
    intro l hl _ _
    have hnil : l = [] := List.length_eq_zero.mp (Nat.le_zero.mp hl)
    subst hnil
    exact ⟨rfl, trivial, trivial⟩
  | succ n ih =>
    intro l hl hq ho
    match l with
    | [] => exact ⟨rfl, trivial, trivial⟩
    | ch :: rest =>
      simp only [List.length_cons] at hl
      by_cases hd : is_delim ch = true
      · obtain ⟨f1, f2, f3⟩ := ih rest (by omega) (fun hm => hq (by simp [hm]))
          (fun hm => ho (by simp [hm]))
        rw [chunksOf_delim ch rest hd]
        exact ⟨by simp only [flatItems, f1], ⟨hd, f2⟩, f3⟩
      · have hd' : is_delim ch = false := by simpa using hd
        have hnq := takeToken_no_quote (ch :: rest) hq
        have hlt := takeToken_snd_lt ch rest hd'
        obtain ⟨f1, f2, f3⟩ := ih ((takeToken (ch :: rest)).2) (by omega)
          (fun hm => hq (mem_takeToken_snd hm)) (fun hm => ho (mem_takeToken_snd hm))
        rw [chunksOf_tok ch rest hd']
        have happ := takeToken_append (ch :: rest)
        have htokne : (takeToken (ch :: rest)).1 ≠ [] := takeToken_fst_ne_nil ch rest hd'
        have htokhead : is_delim ((takeToken (ch :: rest)).1).headI = false := by
        -- the token starts with `ch`
          rw [hnq]
          rw [List.takeWhile_cons, if_pos (by simp [hd'])]
          simpa [List.headI] using hd'
        refine ⟨?_, ?_, ?_⟩
        · show (⟨(takeToken (ch :: rest)).1⟩ : String).data
            ++ flatItems (chunksOf ((takeToken (ch :: rest)).2)) = ch :: rest
          rw [show (⟨(takeToken (ch :: rest)).1⟩ : String).data = (takeToken (ch :: rest)).1
            from rfl, f1, happ]
        · refine ⟨htokne, htokhead, ?_, f2⟩
          show takeToken ((⟨(takeToken (ch :: rest)).1⟩ : String).data
              ++ flatItems (chunksOf ((takeToken (ch :: rest)).2)))
            = ((⟨(takeToken (ch :: rest)).1⟩ : String).data,
               flatItems (chunksOf ((takeToken (ch :: rest)).2)))
          rw [show (⟨(takeToken (ch :: rest)).1⟩ : String).data = (takeToken (ch :: rest)).1
            from rfl, f1, happ]
        · refine ⟨fun _ => ⟨?_, ?_⟩, f3⟩
          · intro hm
            exact ho (mem_takeToken_fst hm)
          · intro tok2 r2 hEq
            cases h2 : (takeToken (ch :: rest)).2 with
            | nil =>
              rw [h2] at hEq
              cases hEq
            | cons c2 r2' =>
              have hc2 : is_delim c2 = true := by
                rw [hnq] at h2
                simp only at h2
                have := dropWhile_head_false (ch :: rest) c2 r2' h2
                simpa using this
              rw [h2, chunksOf_delim c2 r2' hc2] at hEq
              cases hEq

/-- C3 counterexample: re-rendering the extracted plain text can create *new*
pills.  With a plugin registering the quoted-path prefix `@"`, the text
`@"a"@"b" ` renders only `@"b"` as a pill (the token `@"a"` is followed by
`@`, not whitespace).  Extraction inserts a separating space, producing
`@"a" @"b" `, and re-rendering that text converts *both* tokens to pills:
the pill sequences differ. -/
theorem C3_counterexample :
    (Option.map (fun r => pillsOf r.1)
      (build_input_attributed_with_caret "@\"a\"@\"b\" " []
        [⟨some [], some ["@\""], fun _ => none⟩] 0) = some ["@\"b\""]) ∧
    (Option.map (fun r => _plain_text_from_view r.1 false)
      (build_input_attributed_with_caret "@\"a\"@\"b\" " []
        [⟨some [], some ["@\""], fun _ => none⟩] 0) = some "@\"a\" @\"b\" ") ∧
    (Option.map (fun r => pillsOf r.1)
      (build_input_attributed_with_caret "@\"a\" @\"b\" " []
        [⟨some [], some ["@\""], fun _ => none⟩] 0) = some ["@\"a\"", "@\"b\""]) ∧
    (["@\"a\"", "@\"b\""] ≠ (["@\"b\""] : List String)) := by
  refine ⟨by decide, by decide, by decide, by decide⟩

/-- C3 (amended): for every plain text containing no double quote and no
U+FFFC placeholder character, plain-text extraction (`strip_ends = False`)
of the rendered buffer is the *identity* — it returns the original text —
so re-rendering it trivially reproduces the same pill sequence (same raw
texts, same order) as the first render. -/
theorem C3_amended (text : String) (sc : List String) (pl : List Plugin) (c : Int)
    (buf : List RSeg) (k : Nat)
    (hq : '"' ∉ text.data) (ho : objChar ∉ text.data)
    (hb : build_input_attributed_with_caret text sc pl c = some (buf, k)) :
    _plain_text_from_view buf false = text ∧
    ∀ c2 : Int, Option.map (fun r => pillsOf r.1)
        (build_input_attributed_with_caret (_plain_text_from_view buf false) sc pl c2)
      = Option.map (fun r => pillsOf r.1)
        (build_input_attributed_with_caret text sc pl c2) := by
  obtain ⟨f1, f2, f3⟩ := chunks_spec sc (_collect_prefixes pl).1 (_collect_prefixes pl).2.1
    (_collect_prefixes pl).2.2 pl text.data.length text.data (le_refl _) hq ho
  simp only [build_input_attributed_with_caret] at hb
  cases hcase : build_loop sc (_collect_prefixes pl).1 (_collect_prefixes pl).2.1
      (_collect_prefixes pl).2.2 pl c text.data
      { result := [], plain_index := 0, caret_attr_index := 0, caret_set := false } with
  | none =>
    rw [hcase] at hb
    cases hb
  | some st =>
    rw [hcase] at hb
    simp only [Option.some.injEq, Prod.mk.injEq] at hb
    rcases build_loop_refines sc (_collect_prefixes pl).1 (_collect_prefixes pl).2.1
        (_collect_prefixes pl).2.2 pl c (chunksOf text.data)
        { result := [], plain_index := 0, caret_attr_index := 0, caret_set := false } f2 with
      ⟨hn, hbn⟩ | ⟨segs, st', hs, hb', hres⟩
    · rw [f1, hcase] at hbn
      cases hbn
    · rw [f1, hcase] at hb'
      have hst : st' = st := (Option.some.inj hb').symm
      subst hst
      have hbuf : buf = segs := by
        rw [← hb.1, hres]
        simp
      have hext : _plain_text_from_view buf false = text := by
        rw [hbuf]
        show strJoin (to_plain_go [] segs) = text
        rw [to_plain_segs sc (_collect_prefixes pl).1 (_collect_prefixes pl).2.1
          (_collect_prefixes pl).2.2 pl (chunksOf text.data) segs [] f2 f3 hs (Or.inl rfl)]
        rw [show strJoin [] = "" from rfl, str_empty_append, f1]
      exact ⟨hext, fun c2 => by rw [hext]⟩

/-- Witness for `C3_amended`: text `/blog ` with the shortcut `/blog`. -/
theorem C3_amended_witness :
    _plain_text_from_view [RSeg.att (some "/blog") "/blog", RSeg.ch ' '] false = "/blog " ∧
    ∀ c2 : Int, Option.map (fun r => pillsOf r.1)
        (build_input_attributed_with_caret
          (_plain_text_from_view [RSeg.att (some "/blog") "/blog", RSeg.ch ' '] false)
          ["/blog"] [] c2)
      = Option.map (fun r => pillsOf r.1)
        (build_input_attributed_with_caret "/blog " ["/blog"] [] c2) :=
  C3_amended "/blog " ["/blog"] [] 0 [RSeg.att (some "/blog") "/blog", RSeg.ch ' '] 1
    (by decide) (by decide) (by decide)

/-! ## C6 — quote-aware tokenization in the render pass -/

/-- Whether a scan position starts with the two-character sequence `@"`. -/
def isAtQuote : List Char → Bool
  | a :: b :: _ => (a == '@') && (b == '"')
  | _ => false

/-- C6 counterexample: in the render pass's scan, a double quote does *not*
toggle an inside-quotes state for ordinary tokens.  On `a" b` the code's
scanner stops at the space, producing the token `a"`, while the spec's
quote-toggling scan (`spec_quote_scan`) would absorb the space and consume the
whole text. -/
theorem C6_counterexample :
    takeToken ("a\" b" : String).data = (['a', '"'], [' ', 'b']) ∧
    spec_quote_scan ("a\" b" : String).data false = (['a', '"', ' ', 'b'], []) ∧
    takeToken ("a\" b" : String).data ≠ spec_quote_scan ("a\" b" : String).data false := by
  refine ⟨by decide, by decide, by decide⟩

/-- C6 (amended): in the render pass's scan, only a token beginning with the
two-character sequence `@"` absorbs delimiters (everything up to the matching
closing quote); every other token is terminated by the first space, newline
or tab regardless of any quotes it contains.  The fully quote-toggling scan
claimed by the spec is the forward scan of `find_token_range` (the fragment
extractor), whose consumed-length agrees with `spec_quote_scan`. -/
theorem C6_amended :
    (∀ (ch : Char) (rest : List Char), is_delim ch = false →
      isAtQuote (ch :: rest) = false →
      takeToken (ch :: rest) = ((ch :: rest).takeWhile (fun c => !is_delim c),
        (ch :: rest).dropWhile (fun c => !is_delim c))) ∧
    (∀ (body post : List Char), '"' ∉ body →
      takeToken ('@' :: '"' :: (body ++ '"' :: post))
        = ('@' :: '"' :: (body ++ ['"']), post)) ∧
    (∀ (l : List Char) (inq : Bool), find_end_aux l inq = (spec_quote_scan l inq).1.length) := by
  refine ⟨?_, ?_, ?_⟩
  · intro ch rest _ hq
    match rest with
    | [] => rfl
    | b :: rest' =>
      have hab : ¬(ch = '@' ∧ b = '"') := by
        intro ⟨h1, h2⟩
        simp [isAtQuote, h1, h2] at hq
      simp only [takeToken, if_neg hab]
  · intro body post hqb
    have hcond : (('@' : Char) = '@' ∧ ('"' : Char) = '"') := ⟨rfl, rfl⟩
    simp only [takeToken, if_pos hcond]
    have hbody' : ∀ x ∈ body, (fun c => !(c == '"')) x = true := by
      intro x hx
      have : x ≠ '"' := fun h => hqb (h ▸ hx)
      simpa using this
    have htw : (body ++ '"' :: post).takeWhile (fun c => !(c == '"')) = body := by
      rw [takeWhile_append_all _ _ hbody', List.takeWhile_cons]
      simp
    have hdw : (body ++ '"' :: post).dropWhile (fun c => !(c == '"')) = '"' :: post := by
      rw [dropWhile_append_all _ _ hbody', List.dropWhile_cons]
      simp
    rw [htw, hdw]
    simp
  · intro l
    induction l with
    | nil => intro inq; rfl
    | cons ch r ih =>
      intro inq
      by_cases h1 : (ch == '"') = true
      · simp [find_end_aux, spec_quote_scan, h1, ih]
      · by_cases h2 : is_delim ch = true ∧ inq = false
        · simp [find_end_aux, spec_quote_scan, h1, h2]
        · simp [find_end_aux, spec_quote_scan, h1, h2, ih]

/-- Witness for `C6_amended`: the token `a"b` (stops at the space even with a
quote open), a quoted token `@"x y"`, and the fragment-extractor scan on
`a b`. -/
theorem C6_amended_witness :
    takeToken ("a\"b c" : String).data
      = (("a\"b c" : String).data.takeWhile (fun c => !is_delim c),
         ("a\"b c" : String).data.dropWhile (fun c => !is_delim c)) ∧
    takeToken ('@' :: '"' :: (['x', ' ', 'y'] ++ '"' :: [' ', 'z']))
      = ('@' :: '"' :: (['x', ' ', 'y'] ++ ['"']), [' ', 'z']) ∧
    find_end_aux ("a b" : String).data false
      = (spec_quote_scan ("a b" : String).data false).1.length :=
  ⟨C6_amended.1 'a' "\"b c".data (by decide) (by decide),
   C6_amended.2.1 ['x', ' ', 'y'] [' ', 'z'] (by decide),
   C6_amended.2.2 ("a b" : String).data false⟩

end MacLLM
